import Mathlib

/-!
# Verification of `cek-posisi` (`src/app.py`)

A shallow embedding, in Lean 4, of the core logic of the repository's single
source file `src/app.py`:

* `normalize_sls_name` — SLS name normalization (`str.upper`, `str.strip`,
  `re.search(r'RT\s+(\d+)\s+(.*)', name)`, `f"RT {rt_num:03d} {env_name}"`);
* `extract_coords` — coordinate extraction from a map link
  (`@(-?\d+\.\d+),(-?\d+\.\d+)` first, then `q=(-?\d+\.\d+),(-?\d+\.\d+)`);
* `find_containing_feature` — linear scan over GeoJSON features with a
  `try/except` guard around geometry construction and containment;
* the coverage styling predicate of `create_coverage_map.style_function`;
* the survey column selection of `main`;
* `load_data` — per-tier boundary loading.

Strings are modelled as `List Char` (with `String` wrappers at the API
boundary).  Python's `str.upper`, `str.strip`, `\s` and `\d` are modelled on
the ASCII fragment (the data handled by the app is ASCII): uppercasing maps
`'a'..'z'` to `'A'..'Z'`, whitespace is ` \t\n\r\x0b\x0c` for both `strip`
and `\s`, and digits are `0..9`.  Python `float` values produced from the
matched decimal literals are modelled exactly as rationals (`ℚ`); shapely's
`shape(...).contains(point)` is modelled by an even-odd ray-crossing test on
a single closed polygon ring, with a raised exception modelled as a
`malformed` geometry.
-/

/-! ## Character layer -/

/-- Python whitespace (`str.strip()` / regex `\s`), ASCII fragment:
space, tab, newline, carriage return, vertical tab, form feed. -/
def isPySpace (c : Char) : Bool :=
  decide (c.toNat = 32 ∨ c.toNat = 9 ∨ c.toNat = 10 ∨ c.toNat = 13 ∨
    c.toNat = 11 ∨ c.toNat = 12)

/-- Regex `\d`, ASCII fragment: `'0'..'9'`. -/
def isDig (c : Char) : Bool :=
  decide (48 ≤ c.toNat ∧ c.toNat ≤ 57)

/-- ASCII lowercase letter `'a'..'z'`. -/
def isAsciiLower (c : Char) : Bool :=
  decide (97 ≤ c.toNat ∧ c.toNat ≤ 122)

/-- Python `str.upper()` on one character (ASCII fragment):
`'a'..'z'` is mapped 32 code points down, everything else is unchanged. -/
def pyUpperChar (c : Char) : Char :=
  if isAsciiLower c then Char.ofNat (c.toNat - 32) else c

/-- Python `str.upper()` (ASCII fragment), characterwise. -/
def pyUpper (s : List Char) : List Char := s.map pyUpperChar

/-- Left part of Python `str.strip()`. -/
def lstrip (s : List Char) : List Char := s.dropWhile isPySpace

/-- Right part of Python `str.strip()`. -/
def rstrip (s : List Char) : List Char := (s.reverse.dropWhile isPySpace).reverse

/-- Python `str.strip()`: remove leading and trailing whitespace. -/
def pyStrip (s : List Char) : List Char := rstrip (lstrip s)

/-! ## Decimal rendering and reading -/

/-- The ASCII digit character for `d < 10`. -/
def digitChar : Nat → Char
  | 0 => '0' | 1 => '1' | 2 => '2' | 3 => '3' | 4 => '4'
  | 5 => '5' | 6 => '6' | 7 => '7' | 8 => '8' | _ => '9'

/-- Big-endian decimal digits of `n` (empty for `0`), with enough fuel. -/
def natReprAux : Nat → Nat → List Char
  | 0, _ => []
  | fuel + 1, n =>
    if n = 0 then [] else natReprAux fuel (n / 10) ++ [digitChar (n % 10)]

/-- Big-endian decimal digits of `n` (empty for `n = 0`). -/
def natRepr (n : Nat) : List Char := natReprAux n n

/-- Python `f"{n:03d}"`: decimal rendering of `n`, left-padded with `'0'`
to at least three characters, never truncated. -/
def pad3 (n : Nat) : List Char :=
  List.replicate (3 - (natRepr n).length) '0' ++ natRepr n

/-- Python `int(...)` on a (non-empty, all-digit) string. -/
def strToNat (s : List Char) : Nat :=
  s.foldl (fun a c => 10 * a + (c.toNat - 48)) 0

/-! ## Regex search engine

`re.search` tries the pattern at every start position from the left; the
leftmost position with a match wins.  The two patterns used by the app are
deterministic under maximal munch because their adjacent character classes
are disjoint, so each is modelled by a direct matcher on a suffix plus the
generic leftmost-position driver `searchWith`. -/

/-- Try matcher `m` at every suffix, leftmost first (`re.search`). -/
def searchWith (m : List Char → Option (List Char × List Char)) :
    List Char → Option (List Char × List Char)
  | [] => none
  | c :: t =>
    match m (c :: t) with
    | some r => some r
    | none => searchWith m t

/-- Attempt of `RT\s+(\d+)\s+(.*)` at the start of the list.
On success returns (group 1, group 2): the digit run and the rest of the
line (`.` does not match a newline). -/
def matchRTAt : List Char → Option (List Char × List Char)
  | 'R' :: 'T' :: s =>
    let ws1 := s.takeWhile isPySpace
    let s1 := s.dropWhile isPySpace
    let ds := s1.takeWhile isDig
    let s2 := s1.dropWhile isDig
    let ws2 := s2.takeWhile isPySpace
    let s3 := s2.dropWhile isPySpace
    if ws1 = [] ∨ ds = [] ∨ ws2 = [] then none
    else some (ds, s3.takeWhile (fun c => c != '\n'))
  | _ => none

/-- `normalize_sls_name` of `src/app.py` on `List Char`:
uppercase, strip, search for `RT\s+(\d+)\s+(.*)`; on a match rebuild
`f"RT {int(group 1):03d} {group 2 strip}"`, otherwise return the
uppercased/stripped input. -/
def normalizeCore (s : List Char) : List Char :=
  let name := pyStrip (pyUpper s)
  match searchWith matchRTAt name with
  | some (ds, line) =>
    'R' :: 'T' :: ' ' :: pad3 (strToNat ds) ++ ' ' :: pyStrip line
  | none => name

/-- `normalize_sls_name` at the `String` boundary.  The Python function
returns `""` on non-string input; the embedding takes strings only. -/
def normalize_sls_name (s : String) : String :=
  (normalizeCore s.toList).asString

/-! ## Coordinate extraction -/

/-- Attempt of `\d+\.\d+` at the start of the list: one or more digits,
a dot, one or more digits (maximal-munch, which agrees with the regex
because the adjacent classes are disjoint).  Returns the consumed token
and the rest. -/
def matchUnsignedDec (u : List Char) : Option (List Char × List Char) :=
  let ip := u.takeWhile isDig
  let s1 := u.dropWhile isDig
  if ip = [] then none
  else if s1.head? = some '.' then
    let fp := s1.tail.takeWhile isDig
    let s3 := s1.tail.dropWhile isDig
    if fp = [] then none else some (ip ++ '.' :: fp, s3)
  else none

/-- Attempt of `-?\d+\.\d+` at the start of the list: an optional minus
sign, then the unsigned body. -/
def matchSignedDec (s : List Char) : Option (List Char × List Char) :=
  if s.head? = some '-' then
    match matchUnsignedDec s.tail with
    | some (tok, rest) => some ('-' :: tok, rest)
    | none => none
  else matchUnsignedDec s

/-- Attempt of `(-?\d+\.\d+),(-?\d+\.\d+)` at the start of the list,
returning the two matched number tokens. -/
def matchCoordPair (s : List Char) : Option (List Char × List Char) :=
  match matchSignedDec s with
  | none => none
  | some (a, s1) =>
    match s1 with
    | ',' :: s2 =>
      match matchSignedDec s2 with
      | none => none
      | some (b, _) => some (a, b)
    | _ => none

/-- Attempt of `@(-?\d+\.\d+),(-?\d+\.\d+)` at the start of the list. -/
def matchAtPat : List Char → Option (List Char × List Char)
  | '@' :: s => matchCoordPair s
  | _ => none

/-- Attempt of `q=(-?\d+\.\d+),(-?\d+\.\d+)` at the start of the list. -/
def matchQPat : List Char → Option (List Char × List Char)
  | 'q' :: '=' :: s => matchCoordPair s
  | _ => none

/-- Exact rational value of an unsigned decimal token `\d+\.\d+`
(Python's `float(...)` modelled without rounding):
`ip.fp` has the value `(ip * 10^|fp| + fp) / 10^|fp|`.  Stated with
`mkRat` so that it evaluates inside the kernel (the `Rat` ring
operations of the library are irreducible); `decMagVal_eq_add_div`
relates it to the textbook form. -/
def decMagVal (t : List Char) : ℚ :=
  let ip := t.takeWhile isDig
  match t.dropWhile isDig with
  | '.' :: fp =>
    mkRat (strToNat ip * 10 ^ fp.length + strToNat fp) (10 ^ fp.length)
  | _ => (strToNat ip : ℚ)

/-- Exact rational value of a signed decimal token `-?\d+\.\d+`. -/
def decTokVal : List Char → ℚ
  | '-' :: t => Rat.neg (decMagVal t)
  | t => decMagVal t

/-- `extract_coords` of `src/app.py`: search `@lat,lon` first, then
`q=lat,lon`; the Python `(None, None)` result is modelled as `none`. -/
def extract_coords (url : String) : Option (ℚ × ℚ) :=
  match searchWith matchAtPat url.toList with
  | some (a, b) => some (decTokVal a, decTokVal b)
  | none =>
    match searchWith matchQPat url.toList with
    | some (a, b) => some (decTokVal a, decTokVal b)
    | none => none

/-! ## Geometry and the point locator

`shapely.geometry.shape` + `.contains` are modelled for a single closed
polygon ring by the standard even-odd ray-crossing test over exact
rationals (`shapely`'s `contains` is a strict-interior test; the claims
only probe points strictly inside or strictly outside).  A geometry on
which `shape`/`contains` raises is modelled by the `malformed`
constructor. -/

/-- A point, as built by `Point(lon, lat)`: `x` then `y` coordinate. -/
def PointQ : Type := ℚ × ℚ

/-- A feature geometry: a closed polygon ring (last vertex repeats the
first), or a malformed geometry on which `shape`/`contains` raises. -/
inductive Geom
  | poly (ring : List (ℚ × ℚ))
  | malformed
deriving DecidableEq

/-- Exact subtraction on `ℚ` by the usual cross-multiplication formula.
The library subtraction is `@[irreducible]`; this one evaluates in the
kernel, and `qsub_eq` proves it equal to `Sub.sub`. -/
def qsub (a b : ℚ) : ℚ :=
  mkRat (a.num * (b.den : Int) - b.num * (a.den : Int)) (a.den * b.den)

/-- Exact multiplication on `ℚ` (kernel-evaluating; see `qmul_eq`). -/
def qmul (a b : ℚ) : ℚ := mkRat (a.num * b.num) (a.den * b.den)

/-- Strict order test on `ℚ` (kernel-evaluating; see `qlt_iff`). -/
def qlt (a b : ℚ) : Bool := Rat.blt a b

/-- Non-strict order test on `ℚ` (kernel-evaluating; see `qle_iff`). -/
def qle (a b : ℚ) : Bool := !Rat.blt b a

/-- Does the edge `(x1,y1)-(x2,y2)` cross the horizontal ray going right
from `p` (half-open rule on the `y` span, strict on the crossing side)?
`crossesRay_iff` restates the test with the ring operations. -/
def crossesRay (p : ℚ × ℚ) (x1 y1 x2 y2 : ℚ) : Bool :=
  if qle y1 p.2 && qlt p.2 y2 then
    qlt (qmul (qsub p.1 x1) (qsub y2 y1)) (qmul (qsub p.2 y1) (qsub x2 x1))
  else if qle y2 p.2 && qlt p.2 y1 then
    qlt (qmul (qsub p.2 y1) (qsub x2 x1)) (qmul (qsub p.1 x1) (qsub y2 y1))
  else false

/-- Consecutive edges of a ring. -/
def ringEdges (ring : List (ℚ × ℚ)) : List ((ℚ × ℚ) × (ℚ × ℚ)) :=
  ring.zip ring.tail

/-- Even-odd point-in-polygon test on a closed ring. -/
def polyContains (ring : List (ℚ × ℚ)) (p : ℚ × ℚ) : Bool :=
  ((ringEdges ring).countP
    (fun e => crossesRay p e.1.1 e.1.2 e.2.1 e.2.2)) % 2 = 1

/-- `shape(feature['geometry'])` followed by `polygon.contains(point)`:
`none` models a raised exception (caught by the scan's `try/except`). -/
def geomTryContains : Geom → ℚ × ℚ → Option Bool
  | .malformed, _ => none
  | .poly ring, p => some (polyContains ring p)

/-- A GeoJSON feature: a `properties` mapping and a geometry. -/
structure Feature where
  props : List (String × String)
  geom : Geom
deriving DecidableEq

/-- The scan loop of `find_containing_feature`: first feature whose
geometry contains the point; a feature on which `shape`/`contains`
raises is skipped (`except Exception: continue`). -/
def scanFeatures (p : ℚ × ℚ) : List Feature → Option Feature
  | [] => none
  | f :: fs =>
    match geomTryContains f.geom p with
    | some true => some f
    | some false => scanFeatures p fs
    | none => scanFeatures p fs

/-- `find_containing_feature` of `src/app.py`: a falsy (absent) collection
yields `None`; otherwise scan the features in order. -/
def find_containing_feature (p : ℚ × ℚ) : Option (List Feature) → Option Feature
  | none => none
  | some fs => scanFeatures p fs

/-! ## Coverage styling (`create_coverage_map.style_function`) -/

/-- `feature['properties'].get(name_key, "")`. -/
def propGet (props : List (String × String)) (k : String) : String :=
  match props.lookup k with
  | some v => v
  | none => ""

/-- The `is_covered` flag computed by `style_function` for one feature:
the feature's name (under `name_key`) is normalized and tested for
membership in the survey-name set (exact string equality). -/
def feature_is_covered (covered_names : List String) (name_key : String)
    (f : Feature) : Bool :=
  covered_names.contains (normalize_sls_name (propGet f.props name_key))

/-- The fill color chosen by `style_function`: green if covered, red if
not. -/
def feature_fill_color (covered_names : List String) (name_key : String)
    (f : Feature) : String :=
  if feature_is_covered covered_names name_key f then "#00FF00" else "#FF0000"

/-- The coverage result for a tier: `folium.GeoJson` applies
`style_function` to every feature of the collection, in order; the result
pairs each feature with its `is_covered` flag. -/
def coverage_map (features : List Feature) (covered_names : List String)
    (name_key : String) : List (Feature × Bool) :=
  features.map (fun f => (f, feature_is_covered covered_names name_key f))

/-! ## Survey column selection (`main`) -/

/-- The column-selection logic of `main`: start from `df.columns[0]`,
use `'SLS'` when present, otherwise the second column when there is one.
An empty column list (on which `df.columns[0]` would raise) gives
`none`. -/
def select_sls_col : List String → Option String
  | [] => none
  | c0 :: rest =>
    some (if (c0 :: rest).contains "SLS" then "SLS"
          else match rest with
               | c1 :: _ => c1
               | [] => c0)

/-! ## Boundary loading (`load_data`) -/

/-- The three boundary tiers, in the insertion order of the `paths`
dictionary of `load_data`. -/
inductive Tier
  | sls | lingkungan | kelurahan
deriving DecidableEq

/-- The state of one tier's GeoJSON file: missing (`os.path.exists`
false), present but unparseable (`json.load` raises), or parseable. -/
inductive FileState
  | absent
  | invalid
  | valid (fc : List Feature)

/-- Dictionary insertion order of `paths` in `load_data`. -/
def tierOrder : List Tier := [.sls, .lingkungan, .kelurahan]

/-- One iteration of the `load_data` loop: an absent file stores `None`
for the tier, an unparseable file raises (aborting the whole call,
modelled by `Except.error`), a parseable file stores its collection. -/
def loadStep (fs : Tier → FileState) (m : Tier → Option (List Feature))
    (t : Tier) : Except Unit (Tier → Option (List Feature)) :=
  match fs t with
  | .absent => .ok (fun u => if u = t then none else m u)
  | .invalid => .error ()
  | .valid fc => .ok (fun u => if u = t then some fc else m u)

/-- `load_data` of `src/app.py` over an abstract file system `fs`. -/
def load_data (fs : Tier → FileState) :
    Except Unit (Tier → Option (List Feature)) :=
  tierOrder.foldlM (loadStep fs) (fun _ => none)

/-! ## Predicates and concrete fixtures used by the claims -/

/-- Every character is (modelled) whitespace. -/
def AllSpace (s : List Char) : Prop := ∀ c ∈ s, isPySpace c = true

/-- Every character is an ASCII digit. -/
def AllDigit (s : List Char) : Prop := ∀ c ∈ s, isDig c = true

/-- No character is a newline. -/
def NoNewline (s : List Char) : Prop := ∀ c ∈ s, c ≠ '\n'

/-- Every character is a fixed point of uppercasing (i.e. the text is
already uppercase, in the ASCII model). -/
def UpFixed (s : List Char) : Prop := ∀ c ∈ s, pyUpperChar c = c

instance (s : List Char) : Decidable (AllSpace s) :=
  List.decidableBAll _ s

instance (s : List Char) : Decidable (AllDigit s) :=
  List.decidableBAll _ s

instance (s : List Char) : Decidable (NoNewline s) :=
  List.decidableBAll _ s

instance (s : List Char) : Decidable (UpFixed s) :=
  List.decidableBAll _ s

/-- The square with corners (0,0), (0,1), (1,1), (1,0), as a closed ring. -/
def squareRing : List (ℚ × ℚ) := [(0, 0), (0, 1), (1, 1), (1, 0), (0, 0)]

/-- A feature carrying the square polygon. -/
def squareFeature : Feature := ⟨[("nmsls", "RT 1 GATEP")], .poly squareRing⟩

/-- A feature whose geometry is malformed (its `shape` raises). -/
def malformedFeature : Feature := ⟨[("nmsls", "BROKEN")], .malformed⟩

/-- The grammar `RT\s+\d+\s+` of the normalizer, as a predicate on a
suffix decomposition: some position starts with literal `RT`, then one or
more whitespace characters, then one or more digits, then one or more
whitespace characters. -/
def RTMatchable (s : List Char) : Prop :=
  ∃ u ws1 ds ws2 v, s = u ++ 'R' :: 'T' :: (ws1 ++ ds ++ ws2 ++ v) ∧
    ws1 ≠ [] ∧ AllSpace ws1 ∧ ds ≠ [] ∧ AllDigit ds ∧ ws2 ≠ [] ∧ AllSpace ws2

/-- The grammar of one signed decimal number `-?\d+\.\d+`. -/
def SignedDec (t : List Char) : Prop :=
  ∃ sign ip fp, t = sign ++ ip ++ '.' :: fp ∧ (sign = [] ∨ sign = ['-']) ∧
    ip ≠ [] ∧ AllDigit ip ∧ fp ≠ [] ∧ AllDigit fp

/-- A coordinate-pair occurrence `<lead><a>,<b>` for a leading literal
(`['@']` or `['q','=']`): the pattern body of both coordinate regexes. -/
def CoordMatchable (lead : List Char) (s : List Char) : Prop :=
  ∃ u a b v, s = u ++ lead ++ a ++ ',' :: b ++ v ∧ SignedDec a ∧ SignedDec b

/-! ## Character-level lemmas -/

/-- `Char.ofNat` then `Char.toNat` round-trips below the surrogate range. -/
theorem char_toNat_ofNat {n : Nat} (h : n < 55296) : (Char.ofNat n).toNat = n := by
  simp [Char.ofNat, Nat.isValidChar, h]
  simp [Char.ofNatAux, Char.toNat, UInt32.ofNatCore, UInt32.toNat]

theorem char_eq_iff_toNat {c d : Char} : c = d ↔ c.toNat = d.toNat := by
  constructor
  · intro h; rw [h]
  · intro h
    apply Char.ext
    apply UInt32.eq_of_toBitVec_eq
    apply BitVec.eq_of_toNat_eq
    exact h

theorem isAsciiLower_iff {c : Char} :
    isAsciiLower c = true ↔ 97 ≤ c.toNat ∧ c.toNat ≤ 122 := by
  simp [isAsciiLower]

theorem isDig_iff {c : Char} : isDig c = true ↔ 48 ≤ c.toNat ∧ c.toNat ≤ 57 := by
  simp [isDig]

theorem isPySpace_iff {c : Char} :
    isPySpace c = true ↔ (c.toNat = 32 ∨ c.toNat = 9 ∨ c.toNat = 10 ∨
      c.toNat = 13 ∨ c.toNat = 11 ∨ c.toNat = 12) := by
  simp [isPySpace]

theorem pyUpperChar_toNat_lower {c : Char} (h : isAsciiLower c = true) :
    (pyUpperChar c).toNat = c.toNat - 32 := by
  unfold pyUpperChar
  rw [if_pos h]
  exact char_toNat_ofNat (by have := isAsciiLower_iff.mp h; omega)

theorem pyUpperChar_eq_self {c : Char} (h : isAsciiLower c = false) :
    pyUpperChar c = c := by
  unfold pyUpperChar
  rw [h]
  rfl

theorem isAsciiLower_pyUpperChar (c : Char) :
    isAsciiLower (pyUpperChar c) = false := by
  cases h : isAsciiLower c with
  | false => rw [pyUpperChar_eq_self h]; exact h
  | true =>
    have h2 := pyUpperChar_toNat_lower h
    have h3 := isAsciiLower_iff.mp h
    simp only [isAsciiLower, decide_eq_false_iff_not]
    omega

theorem pyUpperChar_idem (c : Char) :
    pyUpperChar (pyUpperChar c) = pyUpperChar c :=
  pyUpperChar_eq_self (isAsciiLower_pyUpperChar c)

theorem isPySpace_pyUpperChar (c : Char) :
    isPySpace (pyUpperChar c) = isPySpace c := by
  cases h : isAsciiLower c with
  | false => rw [pyUpperChar_eq_self h]
  | true =>
    have h2 := pyUpperChar_toNat_lower h
    have h3 := isAsciiLower_iff.mp h
    simp only [isPySpace, decide_eq_decide]
    omega

theorem isDig_pyUpperChar (c : Char) : isDig (pyUpperChar c) = isDig c := by
  cases h : isAsciiLower c with
  | false => rw [pyUpperChar_eq_self h]
  | true =>
    have h2 := pyUpperChar_toNat_lower h
    have h3 := isAsciiLower_iff.mp h
    simp only [isDig, decide_eq_decide]
    omega

theorem pyUpperChar_ne_newline {c : Char} (h : c ≠ '\n') :
    pyUpperChar c ≠ '\n' := by
  cases hl : isAsciiLower c with
  | false => rw [pyUpperChar_eq_self hl]; exact h
  | true =>
    have h2 := pyUpperChar_toNat_lower hl
    have h3 := isAsciiLower_iff.mp hl
    rw [ne_eq, char_eq_iff_toNat]
    intro hc
    rw [show ('\n').toNat = 10 from rfl] at hc
    omega

/-! ## `takeWhile` / `dropWhile` helper lemmas -/

theorem takeWhile_append_all {p : Char → Bool} {a b : List Char}
    (h : ∀ c ∈ a, p c = true) :
    (a ++ b).takeWhile p = a ++ b.takeWhile p := by
  induction a with
  | nil => simp
  | cons x t ih =>
    rw [List.cons_append, List.takeWhile_cons, h x (by simp), if_pos rfl,
      ih (fun c hc => h c (by simp [hc])), List.cons_append]

theorem dropWhile_append_all {p : Char → Bool} {a b : List Char}
    (h : ∀ c ∈ a, p c = true) :
    (a ++ b).dropWhile p = b.dropWhile p := by
  induction a with
  | nil => simp
  | cons x t ih =>
    simp only [List.cons_append, List.dropWhile_cons, h x (by simp)]
    exact ih (fun c hc => h c (by simp [hc]))

theorem takeWhile_eq_nil_of_head {p : Char → Bool} {b : List Char}
    (h : ∀ c, b.head? = some c → p c = false) :
    b.takeWhile p = [] := by
  cases b with
  | nil => rfl
  | cons x t => simp [List.takeWhile_cons, h x rfl]

theorem dropWhile_eq_self_of_head {p : Char → Bool} {b : List Char}
    (h : ∀ c, b.head? = some c → p c = false) :
    b.dropWhile p = b := by
  cases b with
  | nil => rfl
  | cons x t => simp [List.dropWhile_cons, h x rfl]

theorem takeWhile_eq_self_of_all {p : Char → Bool} {b : List Char}
    (h : ∀ c ∈ b, p c = true) :
    b.takeWhile p = b := by
  have h2 := @takeWhile_append_all p b [] h
  simpa using h2

theorem head?_dropWhile_not {p : Char → Bool} {l : List Char} {c : Char}
    (h : (l.dropWhile p).head? = some c) : p c = false := by
  induction l with
  | nil => simp at h
  | cons x t ih =>
    rw [List.dropWhile_cons] at h
    by_cases hx : p x = true
    · rw [if_pos hx] at h; exact ih h
    · rw [if_neg hx] at h
      simp at h
      rw [← h]
      exact Bool.eq_false_iff.mpr hx

theorem dropWhile_append_left_ne_nil {p : Char → Bool} {l l' : List Char}
    (h : l.dropWhile p ≠ []) :
    (l ++ l').dropWhile p = l.dropWhile p ++ l' := by
  induction l with
  | nil => simp at h
  | cons x t ih =>
    by_cases hx : p x = true
    · rw [List.dropWhile_cons, if_pos hx] at h
      rw [List.cons_append, List.dropWhile_cons, if_pos hx, ih h,
        List.dropWhile_cons, if_pos hx]
    · rw [List.cons_append, List.dropWhile_cons, if_neg hx,
        List.dropWhile_cons, if_neg hx]
      simp

theorem dropWhile_append_left_nil {p : Char → Bool} {l l' : List Char}
    (h : l.dropWhile p = []) :
    (l ++ l').dropWhile p = l'.dropWhile p :=
  dropWhile_append_all (List.dropWhile_eq_nil_iff.mp h)

/-! ## `strip` lemmas -/

theorem lstrip_head_not {s : List Char} {c : Char}
    (h : (lstrip s).head? = some c) : isPySpace c = false :=
  head?_dropWhile_not h

theorem rstrip_getLast_not {s : List Char} {c : Char}
    (h : (rstrip s).getLast? = some c) : isPySpace c = false := by
  unfold rstrip at h
  rw [List.getLast?_reverse] at h
  exact head?_dropWhile_not h

theorem lstrip_eq_self_of_head {s : List Char}
    (h : ∀ c, s.head? = some c → isPySpace c = false) : lstrip s = s :=
  dropWhile_eq_self_of_head h

theorem rstrip_eq_self_of_getLast {s : List Char}
    (h : ∀ c, s.getLast? = some c → isPySpace c = false) : rstrip s = s := by
  unfold rstrip
  rw [dropWhile_eq_self_of_head, List.reverse_reverse]
  intro c hc
  rw [List.head?_reverse] at hc
  exact h c hc

theorem rstrip_append_ne_nil {a b : List Char} (h : rstrip b ≠ []) :
    rstrip (a ++ b) = a ++ rstrip b := by
  unfold rstrip at *
  have hb : b.reverse.dropWhile isPySpace ≠ [] := by
    intro hnil
    rw [hnil] at h
    simp at h
  rw [List.reverse_append, dropWhile_append_left_ne_nil hb, List.reverse_append,
    List.reverse_reverse]

theorem rstrip_cons_not {c : Char} {t : List Char} (h : isPySpace c = false) :
    rstrip (c :: t) = c :: rstrip t := by
  by_cases ht : rstrip t = []
  · have htr : t.reverse.dropWhile isPySpace = [] := by
      unfold rstrip at ht
      rwa [List.reverse_eq_nil_iff] at ht
    unfold rstrip
    rw [show (c :: t).reverse = t.reverse ++ [c] by simp,
      dropWhile_append_left_nil htr, htr]
    simp [List.dropWhile_cons, h]
  · exact @rstrip_append_ne_nil [c] t ht

theorem pyStrip_head_not {s : List Char} {c : Char}
    (h : (pyStrip s).head? = some c) : isPySpace c = false := by
  unfold pyStrip at h
  cases hm : lstrip s with
  | nil => rw [hm] at h; simp [rstrip] at h
  | cons x t =>
    have hx : isPySpace x = false := lstrip_head_not (by rw [hm]; rfl)
    rw [hm, rstrip_cons_not hx] at h
    simp at h
    rw [← h]
    exact hx

theorem pyStrip_getLast_not {s : List Char} {c : Char}
    (h : (pyStrip s).getLast? = some c) : isPySpace c = false :=
  rstrip_getLast_not h

theorem pyStrip_eq_self {s : List Char}
    (hh : ∀ c, s.head? = some c → isPySpace c = false)
    (hl : ∀ c, s.getLast? = some c → isPySpace c = false) : pyStrip s = s := by
  unfold pyStrip
  rw [lstrip_eq_self_of_head hh, rstrip_eq_self_of_getLast hl]

theorem pyStrip_idem (s : List Char) : pyStrip (pyStrip s) = pyStrip s :=
  pyStrip_eq_self (fun _ h => pyStrip_head_not h) (fun _ h => pyStrip_getLast_not h)

theorem mem_of_mem_rstrip {s : List Char} {c : Char} (h : c ∈ rstrip s) :
    c ∈ s := by
  unfold rstrip at h
  rw [List.mem_reverse] at h
  have := (@List.dropWhile_sublist _ s.reverse isPySpace).mem h
  rwa [List.mem_reverse] at this

theorem mem_of_mem_pyStrip {s : List Char} {c : Char} (h : c ∈ pyStrip s) :
    c ∈ s := by
  unfold pyStrip at h
  have h1 := mem_of_mem_rstrip h
  exact (List.dropWhile_sublist isPySpace).mem h1

/-! ## `pyUpper` lemmas -/

theorem upFixed_pyUpper (s : List Char) : UpFixed (pyUpper s) := by
  intro c hc
  rw [pyUpper, List.mem_map] at hc
  obtain ⟨d, _, rfl⟩ := hc
  exact pyUpperChar_idem d

theorem pyUpper_eq_self {s : List Char} (h : UpFixed s) : pyUpper s = s := by
  unfold pyUpper
  induction s with
  | nil => rfl
  | cons x t ih =>
    rw [List.map_cons, h x (by simp), ih (fun c hc => h c (by simp [hc]))]

theorem upFixed_sub {s t : List Char} (hsub : ∀ c ∈ t, c ∈ s)
    (h : UpFixed s) : UpFixed t :=
  fun c hc => h c (hsub c hc)

/-! ## Character-class consequences -/

theorem pyUpperChar_of_isDig {c : Char} (h : isDig c = true) :
    pyUpperChar c = c := by
  apply pyUpperChar_eq_self
  have := isDig_iff.mp h
  simp only [isAsciiLower, decide_eq_false_iff_not]
  omega

theorem pyUpperChar_of_isPySpace {c : Char} (h : isPySpace c = true) :
    pyUpperChar c = c := by
  apply pyUpperChar_eq_self
  have := isPySpace_iff.mp h
  simp only [isAsciiLower, decide_eq_false_iff_not]
  omega

theorem isPySpace_of_isDig {c : Char} (h : isDig c = true) :
    isPySpace c = false := by
  have := isDig_iff.mp h
  simp only [isPySpace, decide_eq_false_iff_not]
  omega

theorem ne_newline_of_isDig {c : Char} (h : isDig c = true) : c ≠ '\n' := by
  have := isDig_iff.mp h
  rw [ne_eq, char_eq_iff_toNat]
  rw [show ('\n').toNat = 10 from rfl]
  omega

theorem isPySpace_newline : isPySpace '\n' = true := by decide

/-! ## Decimal rendering lemmas -/

theorem digitChar_toNat {d : Nat} (h : d < 10) :
    (digitChar d).toNat = 48 + d := by
  interval_cases d <;> rfl

theorem isDig_digitChar {d : Nat} (h : d < 10) : isDig (digitChar d) = true := by
  interval_cases d <;> decide

theorem natReprAux_all_digits {fuel : Nat} :
    ∀ {n c}, c ∈ natReprAux fuel n → isDig c = true := by
  induction fuel with
  | zero => intro n c h; simp [natReprAux] at h
  | succ k ih =>
    intro n c h
    cases n with
    | zero => simp [natReprAux] at h
    | succ m =>
      rw [natReprAux, if_neg (by omega), List.mem_append] at h
      rcases h with h | h
      · exact ih h
      · simp at h
        rw [h]
        exact isDig_digitChar (Nat.mod_lt _ (by omega))

theorem natRepr_all_digits {n : Nat} : ∀ c ∈ natRepr n, isDig c = true :=
  fun _ h => natReprAux_all_digits h

theorem strToNat_natReprAux {fuel : Nat} :
    ∀ {n}, n ≤ fuel → strToNat (natReprAux fuel n) = n := by
  induction fuel with
  | zero => intro n h; interval_cases n; rfl
  | succ k ih =>
    intro n h
    cases n with
    | zero => rfl
    | succ m =>
      rw [natReprAux, if_neg (by omega), strToNat, List.foldl_append]
      have hdiv : (m + 1) / 10 ≤ k := by
        have hlt : (m + 1) / 10 < m + 1 := Nat.div_lt_self (by omega) (by omega)
        omega
      have := ih hdiv
      rw [strToNat] at this
      rw [this]
      simp only [List.foldl_cons, List.foldl_nil]
      rw [digitChar_toNat (Nat.mod_lt _ (by omega))]
      have := Nat.div_add_mod (m + 1) 10
      omega

theorem strToNat_natRepr (n : Nat) : strToNat (natRepr n) = n :=
  strToNat_natReprAux (Nat.le_refl n)

theorem strToNat_replicate_zero (k : Nat) (l : List Char) :
    strToNat (List.replicate k '0' ++ l) = strToNat l := by
  induction k with
  | zero => rfl
  | succ j ih =>
    rw [List.replicate_succ, List.cons_append, strToNat, List.foldl_cons]
    exact ih

theorem strToNat_pad3 (n : Nat) : strToNat (pad3 n) = n := by
  rw [pad3, strToNat_replicate_zero]
  exact strToNat_natRepr n

theorem pad3_all_digits {n : Nat} : ∀ c ∈ pad3 n, isDig c = true := by
  intro c hc
  rw [pad3, List.mem_append] at hc
  rcases hc with hc | hc
  · rw [List.eq_of_mem_replicate hc]
    decide
  · exact natRepr_all_digits c hc

theorem pad3_ne_nil (n : Nat) : pad3 n ≠ [] := by
  rw [pad3]
  cases hr : natRepr n with
  | nil => simp [hr]
  | cons x t => simp

theorem pad3_head_digit {n : Nat} {c : Char} (h : (pad3 n).head? = some c) :
    isDig c = true := by
  cases hp : pad3 n with
  | nil => rw [hp] at h; simp at h
  | cons x t =>
    rw [hp] at h
    simp at h
    rw [← h]
    exact pad3_all_digits x (by rw [hp]; simp)

/-! ## `searchWith` lemmas (leftmost-match search) -/

theorem searchWith_of_head_some {m : List Char → Option (List Char × List Char)}
    {c : Char} {t : List Char} {r : List Char × List Char}
    (h : m (c :: t) = some r) : searchWith m (c :: t) = some r := by
  rw [searchWith, h]

theorem searchWith_append_none {m : List Char → Option (List Char × List Char)}
    {u v : List Char}
    (h : ∀ i, i < u.length → m ((u ++ v).drop i) = none) :
    searchWith m (u ++ v) = searchWith m v := by
  induction u with
  | nil => rfl
  | cons x t ih =>
    have h0 : m (x :: (t ++ v)) = none := by
      have := h 0 (by simp)
      simpa using this
    rw [List.cons_append, searchWith, h0]
    exact ih (fun i hi => by
      have := h (i + 1) (by simp; omega)
      simpa using this)

theorem searchWith_some_decomp {m : List Char → Option (List Char × List Char)}
    {s : List Char} {r : List Char × List Char}
    (h : searchWith m s = some r) :
    ∃ u v, s = u ++ v ∧ v ≠ [] ∧ m v = some r := by
  induction s with
  | nil => rw [searchWith] at h; exact absurd h (by simp)
  | cons c t ih =>
    rw [searchWith] at h
    cases hm : m (c :: t) with
    | some r' =>
      rw [hm] at h
      simp only [Option.some.injEq] at h
      exact ⟨[], c :: t, rfl, by simp, by rw [hm, h]⟩
    | none =>
      rw [hm] at h
      obtain ⟨u, v, hs, hv, hmv⟩ := ih h
      exact ⟨c :: u, v, by rw [List.cons_append, hs], hv, hmv⟩

/-! ## `matchRTAt` lemmas -/

theorem matchRTAt_structured {ws1 ds ws2 rest : List Char}
    (hw1 : ws1 ≠ []) (hw1s : AllSpace ws1)
    (hds : ds ≠ []) (hdsd : AllDigit ds)
    (hw2 : ws2 ≠ []) (hw2s : AllSpace ws2)
    (hrest : ∀ c, rest.head? = some c → isPySpace c = false) :
    matchRTAt ('R' :: 'T' :: (ws1 ++ ds ++ ws2 ++ rest)) =
      some (ds, rest.takeWhile (fun c => c != '\n')) := by
  obtain ⟨d, ds', rfl⟩ : ∃ d ds', ds = d :: ds' := by
    cases ds with
    | nil => exact absurd rfl hds
    | cons d ds' => exact ⟨d, ds', rfl⟩
  have hd : isDig d = true := hdsd d (by simp)
  have hdns : isPySpace d = false := isPySpace_of_isDig hd
  obtain ⟨w, ws2', rfl⟩ : ∃ w ws2', ws2 = w :: ws2' := by
    cases ws2 with
    | nil => exact absurd rfl hw2
    | cons w ws2' => exact ⟨w, ws2', rfl⟩
  have hw : isPySpace w = true := hw2s w (by simp)
  have hwnd : isDig w = false := by
    have := isPySpace_iff.mp hw
    simp only [isDig, decide_eq_false_iff_not]
    omega
  rw [matchRTAt]
  have e1 : (ws1 ++ (d :: ds') ++ (w :: ws2') ++ rest).takeWhile isPySpace =
      ws1 := by
    rw [List.append_assoc, List.append_assoc, takeWhile_append_all hw1s]
    simp [List.takeWhile_cons, hdns]
  have e2 : (ws1 ++ (d :: ds') ++ (w :: ws2') ++ rest).dropWhile isPySpace =
      (d :: ds') ++ (w :: ws2') ++ rest := by
    rw [List.append_assoc, List.append_assoc, dropWhile_append_all hw1s,
      dropWhile_eq_self_of_head, List.append_assoc]
    intro c hc
    simp at hc
    rw [← hc]
    exact hdns
  have e3 : ((d :: ds') ++ (w :: ws2') ++ rest).takeWhile isDig = d :: ds' := by
    rw [List.append_assoc, takeWhile_append_all hdsd]
    simp [List.takeWhile_cons, hwnd]
  have e4 : ((d :: ds') ++ (w :: ws2') ++ rest).dropWhile isDig =
      (w :: ws2') ++ rest := by
    rw [List.append_assoc, dropWhile_append_all hdsd,
      dropWhile_eq_self_of_head]
    intro c hc
    simp at hc
    rw [← hc]
    exact hwnd
  have e5 : ((w :: ws2') ++ rest).takeWhile isPySpace = w :: ws2' := by
    rw [takeWhile_append_all hw2s, takeWhile_eq_nil_of_head hrest,
      List.append_nil]
  have e6 : ((w :: ws2') ++ rest).dropWhile isPySpace = rest := by
    rw [dropWhile_append_all hw2s, dropWhile_eq_self_of_head hrest]
  simp only [e1, e2, e3, e4, e5, e6]
  rw [if_neg]
  push_neg
  exact ⟨hw1, by simp, by simp⟩

theorem matchRTAt_some_inv {s : List Char} {ds line : List Char}
    (h : matchRTAt s = some (ds, line)) :
    ∃ ws1 ws2 s3, s = 'R' :: 'T' :: (ws1 ++ ds ++ ws2 ++ s3) ∧
      ws1 ≠ [] ∧ AllSpace ws1 ∧ ds ≠ [] ∧ AllDigit ds ∧
      ws2 ≠ [] ∧ AllSpace ws2 ∧
      (∀ c, s3.head? = some c → isPySpace c = false) ∧
      line = s3.takeWhile (fun c => c != '\n') := by
  unfold matchRTAt at h
  split at h
  next t =>
    simp only at h
    split at h
    next hcond => exact absurd h (by simp)
    next hcond =>
      push_neg at hcond
      obtain ⟨hw1, hds, hw2⟩ := hcond
      simp only [Option.some.injEq, Prod.mk.injEq] at h
      obtain ⟨hds_eq, hline⟩ := h
      refine ⟨t.takeWhile isPySpace,
        ((t.dropWhile isPySpace).dropWhile isDig).takeWhile isPySpace,
        ((t.dropWhile isPySpace).dropWhile isDig).dropWhile isPySpace,
        ?_, hw1, ?_, ?_, ?_, hw2, ?_, ?_, ?_⟩
      · rw [← hds_eq, List.append_assoc, List.append_assoc,
          List.takeWhile_append_dropWhile, List.takeWhile_append_dropWhile,
          List.takeWhile_append_dropWhile]
      · exact fun c hc => List.mem_takeWhile_imp hc
      · rw [hds_eq] at hds; exact hds
      · rw [← hds_eq]; exact fun c hc => List.mem_takeWhile_imp hc
      · exact fun c hc => List.mem_takeWhile_imp hc
      · exact fun c hc => head?_dropWhile_not hc
      · rw [← hline]
  next => exact absurd h (by simp)

/-! ## Further helper lemmas for the normalizer -/

theorem upFixed_append {a b : List Char} (ha : UpFixed a) (hb : UpFixed b) :
    UpFixed (a ++ b) := by
  intro c hc
  rw [List.mem_append] at hc
  rcases hc with hc | hc
  · exact ha c hc
  · exact hb c hc

theorem upFixed_cons {c : Char} {t : List Char} (hc : pyUpperChar c = c)
    (ht : UpFixed t) : UpFixed (c :: t) := by
  intro d hd
  rcases List.mem_cons.mp hd with hd | hd
  · rw [hd]; exact hc
  · exact ht d hd

theorem upFixed_of_allSpace {s : List Char} (h : AllSpace s) : UpFixed s :=
  fun c hc => pyUpperChar_of_isPySpace (h c hc)

theorem upFixed_of_allDigit {s : List Char} (h : AllDigit s) : UpFixed s :=
  fun c hc => pyUpperChar_of_isDig (h c hc)

theorem rstrip_idem (s : List Char) : rstrip (rstrip s) = rstrip s :=
  rstrip_eq_self_of_getLast (fun _ h => rstrip_getLast_not h)

theorem getLast?_append_right {l l' : List Char} (h : l' ≠ []) :
    (l ++ l').getLast? = l'.getLast? := by
  rw [List.getLast?_append]
  cases hg : l'.getLast? with
  | some a => rfl
  | none =>
    rw [List.getLast?_eq_none_iff] at hg
    exact absurd hg h

theorem getLast?_cons_ne {c : Char} {t : List Char} (h : t ≠ []) :
    (c :: t).getLast? = t.getLast? := by
  rw [show c :: t = [c] ++ t from rfl]
  exact getLast?_append_right h

theorem rstrip_cons_ne_nil {c : Char} {t : List Char}
    (h : isPySpace c = false) : rstrip (c :: t) ≠ [] := by
  rw [rstrip_cons_not h]
  simp

theorem head?_rstrip_cons {c : Char} {t : List Char}
    (h : isPySpace c = false) : (rstrip (c :: t)).head? = some c := by
  rw [rstrip_cons_not h]
  rfl

theorem mem_rstrip_of_head {s : List Char} {c : Char}
    (h : c ∈ rstrip s) : c ∈ s := mem_of_mem_rstrip h

theorem takeWhile_bne_newline_eq_self {l : List Char} (h : NoNewline l) :
    l.takeWhile (fun c => c != '\n') = l :=
  takeWhile_eq_self_of_all (fun c hc => bne_iff_ne.mpr (h c hc))

/-- Computation of `normalizeCore` on an input consisting of match-free
uppercase text, a full `RT` match, and a remainder that starts with a
non-whitespace character: the output is the rebuilt `RT {n:03d} {env}`
string for the first match. -/
theorem normalizeCore_structured {pre ws1 ds ws2 rem : List Char}
    (hpre_up : UpFixed pre)
    (hpre_head : ∀ c, pre.head? = some c → isPySpace c = false)
    (hw1 : ws1 ≠ []) (hw1s : AllSpace ws1)
    (hds : ds ≠ []) (hdsd : AllDigit ds)
    (hw2 : ws2 ≠ []) (hw2s : AllSpace ws2)
    (hrem_ne : rem ≠ [])
    (hrem_head : ∀ c, rem.head? = some c → isPySpace c = false)
    (hrem_up : UpFixed rem) (hrem_nl : NoNewline rem)
    (hno : ∀ i, i < pre.length →
      matchRTAt ((pre ++ 'R' :: 'T' ::
        (ws1 ++ ds ++ ws2 ++ rstrip rem)).drop i) = none) :
    normalizeCore (pre ++ 'R' :: 'T' :: (ws1 ++ ds ++ ws2 ++ rem)) =
      'R' :: 'T' :: ' ' :: pad3 (strToNat ds) ++ ' ' :: pyStrip rem := by
  obtain ⟨c0, rem0, rfl⟩ : ∃ c0 rem0, rem = c0 :: rem0 := by
    cases rem with
    | nil => exact absurd rfl hrem_ne
    | cons c0 rem0 => exact ⟨c0, rem0, rfl⟩
  have h0 : isPySpace c0 = false := hrem_head c0 rfl
  have hrs_ne : rstrip (c0 :: rem0) ≠ [] := rstrip_cons_ne_nil h0
  have hrs_head : ∀ c, (rstrip (c0 :: rem0)).head? = some c →
      isPySpace c = false := by
    intro c hc
    rw [head?_rstrip_cons h0] at hc
    simp at hc
    rw [← hc]
    exact h0
  have hrs_nl : NoNewline (rstrip (c0 :: rem0)) :=
    fun c hc => hrem_nl c (mem_of_mem_rstrip hc)
  have hInputUp : UpFixed (pre ++ 'R' :: 'T' ::
      (ws1 ++ ds ++ ws2 ++ (c0 :: rem0))) :=
    upFixed_append hpre_up (upFixed_cons (by decide) (upFixed_cons (by decide)
      (upFixed_append (upFixed_append (upFixed_append
        (upFixed_of_allSpace hw1s) (upFixed_of_allDigit hdsd))
        (upFixed_of_allSpace hw2s)) hrem_up)))
  have hheadN : ∀ c, (pre ++ 'R' :: 'T' ::
      (ws1 ++ ds ++ ws2 ++ (c0 :: rem0))).head? = some c →
      isPySpace c = false := by
    cases pre with
    | nil =>
      intro c hc
      simp at hc
      rw [← hc]
      decide
    | cons p pt =>
      intro c hc
      simp at hc
      rw [← hc]
      exact hpre_head p rfl
  have hN : pyStrip (pre ++ 'R' :: 'T' :: (ws1 ++ ds ++ ws2 ++ (c0 :: rem0))) =
      pre ++ 'R' :: 'T' :: (ws1 ++ ds ++ ws2 ++ rstrip (c0 :: rem0)) := by
    unfold pyStrip
    rw [lstrip_eq_self_of_head hheadN]
    rw [show pre ++ 'R' :: 'T' :: (ws1 ++ ds ++ ws2 ++ (c0 :: rem0)) =
      (pre ++ ['R', 'T'] ++ ws1 ++ ds ++ ws2) ++ (c0 :: rem0) by simp]
    rw [rstrip_append_ne_nil hrs_ne]
    simp
  have hmatch : matchRTAt ('R' :: 'T' ::
      (ws1 ++ ds ++ ws2 ++ rstrip (c0 :: rem0))) =
      some (ds, rstrip (c0 :: rem0)) := by
    rw [matchRTAt_structured hw1 hw1s hds hdsd hw2 hw2s hrs_head,
      takeWhile_bne_newline_eq_self hrs_nl]
  have hsearch : searchWith matchRTAt (pre ++ 'R' :: 'T' ::
      (ws1 ++ ds ++ ws2 ++ rstrip (c0 :: rem0))) =
      some (ds, rstrip (c0 :: rem0)) := by
    rw [searchWith_append_none hno]
    exact searchWith_of_head_some hmatch
  have hps : pyStrip (rstrip (c0 :: rem0)) = pyStrip (c0 :: rem0) := by
    unfold pyStrip
    rw [lstrip_eq_self_of_head hrs_head, rstrip_idem,
      lstrip_eq_self_of_head hrem_head]
  rw [normalizeCore, pyUpper_eq_self hInputUp, hN, hsearch]
  dsimp only
  rw [hps]

/-- The uppercased, stripped input is uppercase-fixed. -/
theorem upFixed_pyStrip_pyUpper (s : List Char) :
    UpFixed (pyStrip (pyUpper s)) :=
  upFixed_sub (fun _ hc => mem_of_mem_pyStrip hc) (upFixed_pyUpper s)

/-- Properties of the environment-name part `group(2).strip()` obtained
from a successful search on the uppercased, stripped input: it is
nonempty, starts with a non-whitespace character, is uppercase-fixed and
contains no newline. -/
theorem normalizeCore_matched_env {s ds line : List Char}
    (h : searchWith matchRTAt (pyStrip (pyUpper s)) = some (ds, line)) :
    AllDigit ds ∧ ds ≠ [] ∧ pyStrip line ≠ [] ∧
      (∀ c, (pyStrip line).head? = some c → isPySpace c = false) ∧
      UpFixed (pyStrip line) ∧ NoNewline (pyStrip line) := by
  obtain ⟨u, v, hsplit, hv, hm⟩ := searchWith_some_decomp h
  obtain ⟨ws1, ws2, s3, hveq, hw1, hw1s, hds, hdsd, hw2, hw2s, hs3h, hline⟩ :=
    matchRTAt_some_inv hm
  have hNup : UpFixed (pyStrip (pyUpper s)) := upFixed_pyStrip_pyUpper s
  -- s3 is nonempty: otherwise the stripped string would end in whitespace
  obtain ⟨c1, s3', rfl⟩ : ∃ c1 s3', s3 = c1 :: s3' := by
    cases hs3 : s3 with
    | cons c1 s3' => exact ⟨c1, s3', rfl⟩
    | nil =>
      exfalso
      rw [hs3] at hveq
      have hlast : (pyStrip (pyUpper s)).getLast? = ws2.getLast? := by
        rw [hsplit, hveq]
        rw [getLast?_append_right (by simp), getLast?_cons_ne (by simp),
          getLast?_cons_ne (by simp [hw2]), List.append_nil,
          List.append_assoc, getLast?_append_right (by simp [hw2]),
          getLast?_append_right hw2]
      obtain ⟨w, hw⟩ : ∃ w, ws2.getLast? = some w := by
        cases hg : ws2.getLast? with
        | some w => exact ⟨w, rfl⟩
        | none => rw [List.getLast?_eq_none_iff] at hg; exact absurd hg hw2
      have hws : isPySpace w = true := hw2s w (List.mem_of_mem_getLast? hw)
      have hfalse : isPySpace w = false := pyStrip_getLast_not (hlast.trans hw)
      rw [hws] at hfalse
      exact absurd hfalse (by simp)
  have hc1 : isPySpace c1 = false := hs3h c1 rfl
  have hc1nl : (c1 != '\n') = true := by
    apply bne_iff_ne.mpr
    intro he
    rw [he, isPySpace_newline] at hc1
    exact absurd hc1 (by simp)
  have hlineq : line = c1 :: (s3'.takeWhile (fun c => c != '\n')) := by
    rw [hline, List.takeWhile_cons, hc1nl, if_pos rfl]
  have hlhead : ∀ c, line.head? = some c → isPySpace c = false := by
    intro c hc
    rw [hlineq] at hc
    simp at hc
    rw [← hc]
    exact hc1
  have hlstrip : lstrip line = line := lstrip_eq_self_of_head hlhead
  have hpse : pyStrip line = c1 :: rstrip (s3'.takeWhile (fun c => c != '\n')) := by
    rw [pyStrip, hlstrip, hlineq, rstrip_cons_not hc1]
  -- membership chain: characters of `pyStrip line` are characters of the
  -- stripped uppercase input
  have hmemN : ∀ c ∈ pyStrip line, c ∈ pyStrip (pyUpper s) := by
    intro c hc
    have h1 : c ∈ line := mem_of_mem_pyStrip hc
    have h2 : c ∈ c1 :: s3' := by
      rw [hline] at h1
      exact (List.takeWhile_sublist _).mem h1
    rw [hsplit, hveq]
    simp only [List.mem_append, List.mem_cons]
    right; right; right
    right
    exact List.mem_cons.mp h2
  refine ⟨hdsd, hds, ?_, fun c hc => pyStrip_head_not hc, ?_, ?_⟩
  · rw [hpse]; simp
  · exact fun c hc => hNup c (hmemN c hc)
  · intro c hc
    have h1 : c ∈ line := mem_of_mem_pyStrip hc
    rw [hline] at h1
    have h2 := List.mem_takeWhile_imp h1
    exact bne_iff_ne.mp h2

/-- The rebuilt output of a successful normalization is a fixed point of
`normalizeCore`. -/
theorem normalizeCore_output_fixed {s ds line : List Char}
    (h : searchWith matchRTAt (pyStrip (pyUpper s)) = some (ds, line)) :
    normalizeCore ('R' :: 'T' :: ' ' :: pad3 (strToNat ds) ++ ' ' :: pyStrip line) =
      'R' :: 'T' :: ' ' :: pad3 (strToNat ds) ++ ' ' :: pyStrip line := by
  obtain ⟨_, _, henv_ne, henv_head, henv_up, henv_nl⟩ :=
    normalizeCore_matched_env h
  have hkey := @normalizeCore_structured [] [' ']
    (pad3 (strToNat ds)) [' '] (pyStrip line)
    (fun c hc => by simp at hc)
    (fun c hc => by simp at hc)
    (by simp) (by decide)
    (pad3_ne_nil _) (fun c hc => pad3_all_digits c hc)
    (by simp) (by decide)
    henv_ne henv_head henv_up henv_nl
    (fun i hi => absurd hi (by simp))
  rw [show ([] : List Char) ++ 'R' :: 'T' ::
      ([' '] ++ pad3 (strToNat ds) ++ [' '] ++ pyStrip line) =
      'R' :: 'T' :: ' ' :: pad3 (strToNat ds) ++ ' ' :: pyStrip line
    by simp] at hkey
  rw [hkey, strToNat_pad3, pyStrip_idem]

/-- Fallback branch: a failed search returns the uppercased, stripped
input. -/
theorem normalizeCore_of_search_none {s : List Char}
    (h : searchWith matchRTAt (pyStrip (pyUpper s)) = none) :
    normalizeCore s = pyStrip (pyUpper s) := by
  rw [normalizeCore, h]

/-- Match branch: a successful search returns the rebuilt string. -/
theorem normalizeCore_of_search_some {s ds line : List Char}
    (h : searchWith matchRTAt (pyStrip (pyUpper s)) = some (ds, line)) :
    normalizeCore s =
      'R' :: 'T' :: ' ' :: pad3 (strToNat ds) ++ ' ' :: pyStrip line := by
  rw [normalizeCore, h]

/-- `normalizeCore` is idempotent. -/
theorem normalizeCore_idem (s : List Char) :
    normalizeCore (normalizeCore s) = normalizeCore s := by
  cases h : searchWith matchRTAt (pyStrip (pyUpper s)) with
  | none =>
    rw [normalizeCore_of_search_none h]
    have hup : pyUpper (pyStrip (pyUpper s)) = pyStrip (pyUpper s) :=
      pyUpper_eq_self (upFixed_pyStrip_pyUpper s)
    rw [normalizeCore, hup, pyStrip_idem, h]
  | some r =>
    obtain ⟨ds, line⟩ := r
    rw [normalizeCore_of_search_some h]
    exact normalizeCore_output_fixed h

/-- A search with a matcher succeeding at a non-empty suffix cannot
return `none`. -/
theorem searchWith_ne_none {m : List Char → Option (List Char × List Char)}
    {u v : List Char} {r : List Char × List Char}
    (hm : m v = some r) (hv : v ≠ []) : searchWith m (u ++ v) ≠ none := by
  induction u with
  | nil =>
    cases v with
    | nil => exact absurd rfl hv
    | cons c t =>
      rw [List.nil_append, searchWith_of_head_some hm]
      simp
  | cons x t ih =>
    rw [List.cons_append, searchWith]
    cases hx : m (x :: (t ++ v)) with
    | some r' => simp
    | none => exact ih

/-- The matcher succeeds on any suffix starting with a full
`RT\s+\d+\s+` occurrence, regardless of what follows. -/
theorem matchRTAt_succeeds {ws1 ds ws2 v : List Char}
    (hw1 : ws1 ≠ []) (hw1s : AllSpace ws1)
    (hds : ds ≠ []) (hdsd : AllDigit ds)
    (hw2 : ws2 ≠ []) (hw2s : AllSpace ws2) :
    ∃ r, matchRTAt ('R' :: 'T' :: (ws1 ++ ds ++ ws2 ++ v)) = some r := by
  obtain ⟨d, ds', rfl⟩ : ∃ d ds', ds = d :: ds' := by
    cases ds with
    | nil => exact absurd rfl hds
    | cons d ds' => exact ⟨d, ds', rfl⟩
  have hd : isDig d = true := hdsd d (by simp)
  have hdns : isPySpace d = false := isPySpace_of_isDig hd
  obtain ⟨w, ws2', rfl⟩ : ∃ w ws2', ws2 = w :: ws2' := by
    cases ws2 with
    | nil => exact absurd rfl hw2
    | cons w ws2' => exact ⟨w, ws2', rfl⟩
  have hw : isPySpace w = true := hw2s w (by simp)
  have hwnd : isDig w = false := by
    have := isPySpace_iff.mp hw
    simp only [isDig, decide_eq_false_iff_not]
    omega
  rw [matchRTAt]
  have e1 : (ws1 ++ (d :: ds') ++ (w :: ws2') ++ v).takeWhile isPySpace =
      ws1 := by
    rw [List.append_assoc, List.append_assoc, takeWhile_append_all hw1s]
    simp [List.takeWhile_cons, hdns]
  have e2 : (ws1 ++ (d :: ds') ++ (w :: ws2') ++ v).dropWhile isPySpace =
      (d :: ds') ++ (w :: ws2') ++ v := by
    rw [List.append_assoc, List.append_assoc, dropWhile_append_all hw1s,
      dropWhile_eq_self_of_head, List.append_assoc]
    intro c hc
    simp at hc
    rw [← hc]
    exact hdns
  have e3 : ((d :: ds') ++ (w :: ws2') ++ v).takeWhile isDig = d :: ds' := by
    rw [List.append_assoc, takeWhile_append_all hdsd]
    simp [List.takeWhile_cons, hwnd]
  have e4 : ((d :: ds') ++ (w :: ws2') ++ v).dropWhile isDig =
      (w :: ws2') ++ v := by
    rw [List.append_assoc, dropWhile_append_all hdsd,
      dropWhile_eq_self_of_head]
    intro c hc
    simp at hc
    rw [← hc]
    exact hwnd
  simp only [e1, e2, e3, e4]
  rw [if_neg]
  · exact ⟨_, rfl⟩
  · push_neg
    refine ⟨hw1, by simp, ?_⟩
    rw [takeWhile_append_all hw2s]
    simp

/-- The search fails exactly when no position carries the
`RT\s+\d+\s+` grammar (completeness of the leftmost search with respect
to the grammar). -/
theorem searchRT_none_iff (s : List Char) :
    searchWith matchRTAt s = none ↔ ¬ RTMatchable s := by
  constructor
  · intro h hmat
    obtain ⟨u, ws1, ds, ws2, v, hs, hw1, hw1s, hds, hdsd, hw2, hw2s⟩ := hmat
    obtain ⟨r, hr⟩ := matchRTAt_succeeds hw1 hw1s hds hdsd hw2 hw2s
    rw [hs] at h
    exact searchWith_ne_none hr (by simp) h
  · intro h
    cases hs : searchWith matchRTAt s with
    | none => rfl
    | some r =>
      exfalso
      apply h
      obtain ⟨ds, line⟩ := r
      obtain ⟨u, v, hsplit, hv, hm⟩ := searchWith_some_decomp hs
      obtain ⟨ws1, ws2, s3, hveq, hw1, hw1s, hds, hdsd, hw2, hw2s, _, _⟩ :=
        matchRTAt_some_inv hm
      exact ⟨u, ws1, ds, ws2, s3, by rw [hsplit, hveq], hw1, hw1s, hds,
        hdsd, hw2, hw2s⟩

/-! ## Claims about the name normalizer -/

/-- C3: normalization is idempotent: for every string `x`,
`normalize_sls_name (normalize_sls_name x) = normalize_sls_name x`. -/
theorem claim_C3_normalize_idempotent (x : String) :
    normalize_sls_name (normalize_sls_name x) = normalize_sls_name x := by
  unfold normalize_sls_name
  rw [show ((normalizeCore x.toList).asString).toList = normalizeCore x.toList
    from rfl, normalizeCore_idem]

/-- C1: for every input of the form literal `RT`, whitespace, a digit run
(any width), whitespace and a trailing free-text remainder (a non-empty
line of already-uppercase text starting with a non-blank character),
`normalize_sls_name` returns `"RT "`, the number rendered with exactly
three digits (zero-padded, not truncated for numbers ≥ 1000), a single
space, and the trimmed remainder; in particular
`normalize("RT 9 LINGKUNGAN GATEP") = normalize("RT 009 LINGKUNGAN GATEP")
= "RT 009 LINGKUNGAN GATEP"`. -/
theorem claim_C1_normalize_padded (ws1 ds ws2 rem0 : List Char) (c0 : Char)
    (hw1 : ws1 ≠ []) (hw1s : AllSpace ws1)
    (hds : ds ≠ []) (hdsd : AllDigit ds)
    (hw2 : ws2 ≠ []) (hw2s : AllSpace ws2)
    (h0 : isPySpace c0 = false)
    (hrem_up : UpFixed (c0 :: rem0)) (hrem_nl : NoNewline (c0 :: rem0)) :
    normalize_sls_name (('R' :: 'T' :: (ws1 ++ ds ++ ws2 ++ (c0 :: rem0))).asString) =
      (('R' :: 'T' :: ' ' :: pad3 (strToNat ds)) ++ ' ' :: pyStrip (c0 :: rem0)).asString ∧
    normalize_sls_name "RT 9 LINGKUNGAN GATEP" = "RT 009 LINGKUNGAN GATEP" ∧
    normalize_sls_name "RT 009 LINGKUNGAN GATEP" = "RT 009 LINGKUNGAN GATEP" ∧
    normalize_sls_name "RT 1234 FOO" = "RT 1234 FOO" := by
  refine ⟨?_, by decide, by decide, by decide⟩
  have h := @normalizeCore_structured [] ws1 ds ws2 (c0 :: rem0)
    (fun c hc => by simp at hc) (fun c hc => by simp at hc)
    hw1 hw1s hds hdsd hw2 hw2s (by simp)
    (fun c hc => by simp at hc; rw [← hc]; exact h0)
    hrem_up hrem_nl
    (fun i hi => absurd hi (by simp))
  rw [List.nil_append] at h
  unfold normalize_sls_name
  rw [show (('R' :: 'T' :: (ws1 ++ ds ++ ws2 ++ (c0 :: rem0))).asString).toList =
    'R' :: 'T' :: (ws1 ++ ds ++ ws2 ++ (c0 :: rem0)) from rfl, h]

/-- Witness for C1 at the concrete input `"RT 9 G"`. -/
theorem claim_C1_witness :
    normalize_sls_name (('R' :: 'T' :: ([' '] ++ ['9'] ++ [' '] ++ ('G' :: []))).asString) =
      (('R' :: 'T' :: ' ' :: pad3 (strToNat ['9'])) ++ ' ' :: pyStrip ('G' :: [])).asString :=
  (claim_C1_normalize_padded [' '] ['9'] [' '] [] 'G' (by decide) (by decide)
    (by decide) (by decide) (by decide) (by decide) (by decide)
    (by decide) (by decide)).1

/-- C2 (amended): an input in which the pattern `RT` + whitespace +
digits + whitespace occurs nowhere (not merely "not at the start") is
returned unchanged except for uppercasing and trimming; the first
conjunct characterises the search failure exactly by the absence of the
grammar, and `normalize("SOME OTHER NAME") = "SOME OTHER NAME"`. -/
theorem claim_C2_fallback_uppercase_trim :
    (∀ s : List Char, searchWith matchRTAt s = none ↔ ¬ RTMatchable s) ∧
    (∀ x : String, ¬ RTMatchable (pyStrip (pyUpper x.toList)) →
      normalize_sls_name x = (pyStrip (pyUpper x.toList)).asString) ∧
    normalize_sls_name "SOME OTHER NAME" = "SOME OTHER NAME" := by
  refine ⟨searchRT_none_iff, ?_, by decide⟩
  intro x hx
  unfold normalize_sls_name
  rw [normalizeCore_of_search_none ((searchRT_none_iff _).mpr hx)]

/-- C2 counterexample: `"KELURAHAN X RT 5 GATEP"` has no *leading*
`RT` + digits, yet `normalize_sls_name` does not return it
uppercased/trimmed-unchanged: `re.search` finds the internal occurrence
and rebuilds `"RT 005 GATEP"`. -/
theorem claim_C2_counterexample :
    normalize_sls_name "KELURAHAN X RT 5 GATEP" = "RT 005 GATEP" ∧
    normalize_sls_name "KELURAHAN X RT 5 GATEP" ≠ "KELURAHAN X RT 5 GATEP" :=
  ⟨by decide, by decide⟩

/-- Witness for C2: the amended fallback applied at the concrete input
`"SOME OTHER NAME"`. -/
theorem claim_C2_witness :
    normalize_sls_name "SOME OTHER NAME" =
      (pyStrip (pyUpper "SOME OTHER NAME".toList)).asString :=
  claim_C2_fallback_uppercase_trim.2.1 "SOME OTHER NAME"
    ((searchRT_none_iff _).mp (by decide))

/-- C10: for an input containing an occurrence of `RT` + whitespace +
digits + whitespace + remainder that is not preceded by any earlier
match (the text before it is match-free, uppercase, not starting with a
blank; the remainder is a stripped, newline-free uppercase line), the
whole leading text is discarded and only the rebuilt
`RT {n:03d} {remainder}` part is returned; in particular
`normalize("KELURAHAN X RT 5 GATEP") = "RT 005 GATEP"`. -/
theorem claim_C10_internal_match (pre ws1 ds ws2 rem0 : List Char) (c0 : Char)
    (hpre_up : UpFixed pre)
    (hpre_head : ∀ c, pre.head? = some c → isPySpace c = false)
    (hw1 : ws1 ≠ []) (hw1s : AllSpace ws1)
    (hds : ds ≠ []) (hdsd : AllDigit ds)
    (hw2 : ws2 ≠ []) (hw2s : AllSpace ws2)
    (h0 : isPySpace c0 = false)
    (hrem_up : UpFixed (c0 :: rem0)) (hrem_nl : NoNewline (c0 :: rem0))
    (hlast : ∀ c, (c0 :: rem0).getLast? = some c → isPySpace c = false)
    (hno : ∀ i, i < pre.length → matchRTAt
      ((pre ++ 'R' :: 'T' :: (ws1 ++ ds ++ ws2 ++ (c0 :: rem0))).drop i) = none) :
    normalize_sls_name
        ((pre ++ 'R' :: 'T' :: (ws1 ++ ds ++ ws2 ++ (c0 :: rem0))).asString) =
      (('R' :: 'T' :: ' ' :: pad3 (strToNat ds)) ++ ' ' :: (c0 :: rem0)).asString ∧
    normalize_sls_name "KELURAHAN X RT 5 GATEP" = "RT 005 GATEP" := by
  refine ⟨?_, by decide⟩
  have hrs : rstrip (c0 :: rem0) = c0 :: rem0 := rstrip_eq_self_of_getLast hlast
  have hps : pyStrip (c0 :: rem0) = c0 :: rem0 := by
    unfold pyStrip
    rw [lstrip_eq_self_of_head, hrs]
    intro c hc
    simp at hc
    rw [← hc]
    exact h0
  have h := @normalizeCore_structured pre ws1 ds ws2 (c0 :: rem0)
    hpre_up hpre_head
    hw1 hw1s hds hdsd hw2 hw2s (by simp)
    (fun c hc => by simp at hc; rw [← hc]; exact h0)
    hrem_up hrem_nl
    (fun i hi => by rw [hrs]; exact hno i hi)
  rw [hps] at h
  unfold normalize_sls_name
  rw [show ((pre ++ 'R' :: 'T' :: (ws1 ++ ds ++ ws2 ++ (c0 :: rem0))).asString).toList =
    pre ++ 'R' :: 'T' :: (ws1 ++ ds ++ ws2 ++ (c0 :: rem0)) from rfl, h]

/-- Witness for C10 at the concrete input `"X RT 5 G"`. -/
theorem claim_C10_witness :
    normalize_sls_name
        ((['X', ' '] ++ 'R' :: 'T' :: ([' '] ++ ['5'] ++ [' '] ++ ('G' :: []))).asString) =
      (('R' :: 'T' :: ' ' :: pad3 (strToNat ['5'])) ++ ' ' :: ('G' :: [])).asString :=
  (claim_C10_internal_match ['X', ' '] [' '] ['5'] [' '] [] 'G'
    (by decide)
    (fun c hc => by simp at hc; rw [← hc]; decide)
    (by decide) (by decide) (by decide) (by decide) (by decide) (by decide)
    (by decide) (by decide) (by decide)
    (fun c hc => by simp at hc; rw [← hc]; decide)
    (fun i hi => by
      have h2 : i < 2 := by simpa using hi
      interval_cases i <;> decide)).1

/-! ## Bridging lemmas for the kernel-evaluating rational helpers -/

theorem qlt_iff (a b : ℚ) : qlt a b = true ↔ a < b := Iff.rfl

theorem qle_iff (a b : ℚ) : qle a b = true ↔ a ≤ b := by
  rw [qle, Bool.not_eq_true']
  exact Iff.rfl

theorem qsub_eq (a b : ℚ) : qsub a b = a - b := by
  rw [qsub, Rat.mkRat_eq_div]
  have ha : ((a.den : ℚ)) ≠ 0 := by exact_mod_cast a.den_nz
  have hb : ((b.den : ℚ)) ≠ 0 := by exact_mod_cast b.den_nz
  push_cast
  rw [mul_comm (b.num : ℚ) (a.den : ℚ), ← div_sub_div _ _ ha hb,
    Rat.num_div_den, Rat.num_div_den]

theorem qmul_eq (a b : ℚ) : qmul a b = a * b := by
  rw [qmul, Rat.mkRat_eq_div]
  push_cast
  rw [← div_mul_div_comm, Rat.num_div_den, Rat.num_div_den]

/-- The computable edge test agrees with the textbook ray-crossing
condition stated with the ring operations of `ℚ`. -/
theorem crossesRay_iff (p : ℚ × ℚ) (x1 y1 x2 y2 : ℚ) :
    crossesRay p x1 y1 x2 y2 = true ↔
      ((y1 ≤ p.2 ∧ p.2 < y2) ∧
        (p.1 - x1) * (y2 - y1) < (p.2 - y1) * (x2 - x1)) ∨
      ((y2 ≤ p.2 ∧ p.2 < y1) ∧
        (p.2 - y1) * (x2 - x1) < (p.1 - x1) * (y2 - y1)) := by
  rw [crossesRay]
  by_cases h1 : (qle y1 p.2 && qlt p.2 y2) = true
  · rw [if_pos h1]
    rw [Bool.and_eq_true, qle_iff, qlt_iff] at h1
    simp only [qsub_eq, qmul_eq, qlt_iff]
    constructor
    · intro h
      exact Or.inl ⟨h1, h⟩
    · intro h
      rcases h with ⟨_, h⟩ | ⟨⟨hy2, _⟩, _⟩
      · exact h
      · exact absurd (lt_of_lt_of_le h1.2 hy2) (lt_irrefl _)
  · rw [if_neg h1]
    rw [Bool.and_eq_true, qle_iff, qlt_iff] at h1
    push_neg at h1
    by_cases h2 : (qle y2 p.2 && qlt p.2 y1) = true
    · rw [if_pos h2]
      rw [Bool.and_eq_true, qle_iff, qlt_iff] at h2
      simp only [qsub_eq, qmul_eq, qlt_iff]
      constructor
      · intro h
        exact Or.inr ⟨h2, h⟩
      · intro h
        rcases h with ⟨⟨hy1, hlt⟩, _⟩ | ⟨_, h⟩
        · exact absurd (h1 hy1) (not_le.mpr hlt)
        · exact h
    · rw [if_neg h2]
      rw [Bool.and_eq_true, qle_iff, qlt_iff] at h2
      push_neg at h2
      apply iff_of_false (by simp)
      intro h
      rcases h with ⟨⟨hy1, hlt⟩, _⟩ | ⟨⟨hy2, hlt⟩, _⟩
      · exact absurd (h1 hy1) (not_le.mpr hlt)
      · exact absurd (h2 hy2) (not_le.mpr hlt)

/-! ## Scan lemmas for the point locator -/

theorem scanFeatures_first {p : ℚ × ℚ} {fs : List Feature} {i : Nat}
    (hi : i < fs.length)
    (hyes : geomTryContains (fs.get ⟨i, hi⟩).geom p = some true)
    (hno : ∀ j (hj : j < i),
      geomTryContains (fs.get ⟨j, Nat.lt_trans hj hi⟩).geom p ≠ some true) :
    scanFeatures p fs = some (fs.get ⟨i, hi⟩) := by
  induction fs generalizing i with
  | nil => simp at hi
  | cons f t ih =>
    cases i with
    | zero =>
      simp only [List.get] at hyes ⊢
      rw [scanFeatures, hyes]
    | succ k =>
      have hf : geomTryContains f.geom p ≠ some true := by
        have := hno 0 (Nat.succ_pos k)
        simpa using this
      have hk : k < t.length := Nat.lt_of_succ_lt_succ hi
      have hrec := ih hk (by simpa using hyes)
        (fun j hj => by
          have := hno (j + 1) (Nat.succ_lt_succ hj)
          simpa using this)
      rw [scanFeatures]
      cases hg : geomTryContains f.geom p with
      | none => simpa using hrec
      | some b =>
        cases b with
        | true => exact absurd hg hf
        | false => simpa using hrec

theorem scanFeatures_none {p : ℚ × ℚ} {fs : List Feature}
    (h : ∀ i (hi : i < fs.length),
      geomTryContains (fs.get ⟨i, hi⟩).geom p ≠ some true) :
    scanFeatures p fs = none := by
  induction fs with
  | nil => rfl
  | cons f t ih =>
    have hf : geomTryContains f.geom p ≠ some true := by
      have := h 0 (Nat.succ_pos _)
      simpa using this
    rw [scanFeatures]
    cases hg : geomTryContains f.geom p with
    | none =>
      exact ih (fun i hi => by
        have := h (i + 1) (Nat.succ_lt_succ hi)
        simpa using this)
    | some b =>
      cases b with
      | true => exact absurd hg hf
      | false =>
        exact ih (fun i hi => by
          have := h (i + 1) (Nat.succ_lt_succ hi)
          simpa using this)

theorem scanFeatures_skip {p : ℚ × ℚ} {fs1 fs2 : List Feature} {f : Feature}
    (hf : geomTryContains f.geom p = none) :
    scanFeatures p (fs1 ++ f :: fs2) = scanFeatures p (fs1 ++ fs2) := by
  induction fs1 with
  | nil =>
    rw [List.nil_append, List.nil_append, scanFeatures, hf]
  | cons g t ih =>
    rw [List.cons_append, List.cons_append, scanFeatures, scanFeatures]
    cases hg : geomTryContains g.geom p with
    | none => exact ih
    | some b =>
      cases b with
      | true => rfl
      | false => exact ih

/-! ## Claims about the point locator -/

/-- C5: the locator scans the collection linearly and returns the first
feature whose geometry contains the point, `none` when no feature
contains it; for the unit square, the point (1/2, 1/2) resolves to the
square and (2, 2) resolves to `none`. -/
theorem claim_C5_first_match :
    (∀ (p : ℚ × ℚ) (fs : List Feature) (i : Nat) (hi : i < fs.length),
      geomTryContains (fs.get ⟨i, hi⟩).geom p = some true →
      (∀ j (hj : j < i),
        geomTryContains (fs.get ⟨j, Nat.lt_trans hj hi⟩).geom p ≠ some true) →
      find_containing_feature p (some fs) = some (fs.get ⟨i, hi⟩)) ∧
    (∀ (p : ℚ × ℚ) (fs : List Feature),
      (∀ i (hi : i < fs.length),
        geomTryContains (fs.get ⟨i, hi⟩).geom p ≠ some true) →
      find_containing_feature p (some fs) = none) ∧
    find_containing_feature (mkRat 1 2, mkRat 1 2) (some [squareFeature]) =
      some squareFeature ∧
    find_containing_feature (2, 2) (some [squareFeature]) = none := by
  refine ⟨?_, ?_, by decide, by decide⟩
  · intro p fs i hi hyes hno
    exact scanFeatures_first hi hyes hno
  · intro p fs h
    exact scanFeatures_none h

/-- Witness for C5: the first-match part applied to the unit square and
the interior point (1/2, 1/2). -/
theorem claim_C5_witness :
    find_containing_feature (mkRat 1 2, mkRat 1 2) (some [squareFeature]) =
      some ([squareFeature].get ⟨0, by decide⟩) :=
  claim_C5_first_match.1 (mkRat 1 2, mkRat 1 2) [squareFeature] 0 (by decide)
    (by decide) (fun j hj => absurd hj (by omega))

/-- C6: a malformed geometry never aborts the scan: the feature is
skipped and the scan continues, so deleting a malformed feature from the
collection does not change the result; in particular a malformed
geometry followed by a valid containing square still yields the
square. -/
theorem claim_C6_malformed_skipped :
    (∀ (p : ℚ × ℚ) (fs1 fs2 : List Feature) (f : Feature),
      f.geom = Geom.malformed →
      find_containing_feature p (some (fs1 ++ f :: fs2)) =
        find_containing_feature p (some (fs1 ++ fs2))) ∧
    find_containing_feature (mkRat 1 2, mkRat 1 2)
        (some [malformedFeature, squareFeature]) = some squareFeature := by
  refine ⟨?_, by decide⟩
  intro p fs1 fs2 f hf
  show scanFeatures p (fs1 ++ f :: fs2) = scanFeatures p (fs1 ++ fs2)
  exact scanFeatures_skip (by rw [hf]; rfl)

/-- Witness for C6: skipping the malformed feature in front of the
square does not change the lookup at (1/2, 1/2). -/
theorem claim_C6_witness :
    find_containing_feature (mkRat 1 2, mkRat 1 2)
        (some ([] ++ malformedFeature :: [squareFeature])) =
      find_containing_feature (mkRat 1 2, mkRat 1 2) (some ([] ++ [squareFeature])) :=
  claim_C6_malformed_skipped.1 (mkRat 1 2, mkRat 1 2) [] [squareFeature]
    malformedFeature rfl

/-! ## Claims about coverage styling and column selection -/

/-- C7: for every tier collection and every set of already-normalized
survey names, the per-feature covered flag is exactly membership of the
feature's normalized name in the survey-name set; the result pairs every
feature exactly once, in enumeration order; for boundaries A, B, C and
the survey set {normalize A, normalize C}, the result is A covered,
B not covered, C covered, in that order. -/
theorem claim_C7_coverage_membership :
    (∀ (features : List Feature) (covered_names : List String)
      (name_key : String),
      (coverage_map features covered_names name_key).length =
        features.length) ∧
    (∀ (features : List Feature) (covered_names : List String)
      (name_key : String) (i : Nat) (f : Feature),
      features[i]? = some f →
      (coverage_map features covered_names name_key)[i]? =
        some (f, covered_names.contains
          (normalize_sls_name (propGet f.props name_key)))) ∧
    coverage_map
        [⟨[("nmsls", "RT 1 X")], Geom.poly []⟩,
         ⟨[("nmsls", "RT 2 X")], Geom.poly []⟩,
         ⟨[("nmsls", "RT 3 X")], Geom.poly []⟩]
        [normalize_sls_name "RT 1 X", normalize_sls_name "RT 3 X"] "nmsls" =
      [(⟨[("nmsls", "RT 1 X")], Geom.poly []⟩, true),
       (⟨[("nmsls", "RT 2 X")], Geom.poly []⟩, false),
       (⟨[("nmsls", "RT 3 X")], Geom.poly []⟩, true)] := by
  refine ⟨?_, ?_, by decide⟩
  · intro features cn k
    simp [coverage_map]
  · intro features cn k i f hf
    rw [coverage_map, List.getElem?_map, hf]
    rfl

/-- Witness for C7: the pointwise form applied to a singleton collection
at index 0. -/
theorem claim_C7_witness :
    (coverage_map [⟨[("nmsls", "RT 1 X")], Geom.poly []⟩]
        [normalize_sls_name "RT 1 X"] "nmsls")[0]? =
      some (⟨[("nmsls", "RT 1 X")], Geom.poly []⟩,
        ([normalize_sls_name "RT 1 X"]).contains
          (normalize_sls_name
            (propGet [("nmsls", "RT 1 X")] "nmsls"))) :=
  claim_C7_coverage_membership.2.1 [⟨[("nmsls", "RT 1 X")], Geom.poly []⟩]
    [normalize_sls_name "RT 1 X"] "nmsls" 0
    ⟨[("nmsls", "RT 1 X")], Geom.poly []⟩ rfl

/-- C8: the raw-name column is `'SLS'` when a column of that name
exists, otherwise the second column when the table has more than one
column, otherwise the first (and only) column. -/
theorem claim_C8_column_selection (c0 : String) (rest : List String) :
    ("SLS" ∈ c0 :: rest → select_sls_col (c0 :: rest) = some "SLS") ∧
    ("SLS" ∉ c0 :: rest → ∀ c1 r, rest = c1 :: r →
      select_sls_col (c0 :: rest) = some c1) ∧
    ("SLS" ∉ c0 :: rest → rest = [] →
      select_sls_col (c0 :: rest) = some c0) := by
  refine ⟨?_, ?_, ?_⟩
  · intro h
    simp only [select_sls_col]
    rw [if_pos (List.elem_eq_true_of_mem h)]
  · intro h c1 r hr
    subst hr
    simp only [select_sls_col]
    rw [if_neg]
    intro hc
    exact h (List.elem_iff.mp hc)
  · intro h hr
    subst hr
    simp only [select_sls_col]
    rw [if_neg]
    intro hc
    exact h (List.elem_iff.mp hc)

/-- Witness for C8: all three cases at concrete column lists. -/
theorem claim_C8_witness :
    select_sls_col ["NO", "SLS"] = some "SLS" ∧
    select_sls_col ["A", "B", "C"] = some "B" ∧
    select_sls_col ["ONLY"] = some "ONLY" :=
  ⟨(claim_C8_column_selection "NO" ["SLS"]).1 (by decide),
   (claim_C8_column_selection "A" ["B", "C"]).2.1 (by decide) "B" ["C"] rfl,
   (claim_C8_column_selection "ONLY" []).2.2 (by decide) rfl⟩

/-! ## Claims about boundary loading -/

/-- The `Except` bind on a success just continues (the monadic shape of
the loop body). -/
theorem except_ok_bind {α β : Type} (a : α) (f : α → Except Unit β) :
    (Except.ok a >>= f) = f a := rfl

/-- Unrolling of the `load_data` loop over the three tiers in dictionary
order. -/
theorem load_data_eq (fs : Tier → FileState) : load_data fs =
    loadStep fs (fun _ => none) Tier.sls >>= fun m1 =>
    loadStep fs m1 Tier.lingkungan >>= fun m2 =>
    loadStep fs m2 Tier.kelurahan >>= fun m3 => pure m3 := rfl

/-- One loop iteration of `load_data` on a tier whose file does not raise
in `json.load`: the stored entry is `none` for a missing file and the
parsed collection for a parseable one; other tiers are untouched. -/
theorem loadStep_ok {fs : Tier → FileState} {t : Tier}
    (m : Tier → Option (List Feature)) (h : fs t ≠ FileState.invalid) :
    ∃ m', loadStep fs m t = Except.ok m' ∧
      (∀ u, u ≠ t → m' u = m u) ∧
      (fs t = FileState.absent → m' t = none) ∧
      (∀ fc, fs t = FileState.valid fc → m' t = some fc) := by
  cases hf : fs t with
  | absent =>
    exact ⟨fun u => if u = t then none else m u,
      by simp only [loadStep, hf],
      fun u hu => if_neg hu,
      fun _ => if_pos rfl,
      fun fc hfc => FileState.noConfusion hfc⟩
  | invalid => exact absurd hf h
  | valid fc =>
    exact ⟨fun u => if u = t then some fc else m u,
      by simp only [loadStep, hf],
      fun u hu => if_neg hu,
      fun habs => FileState.noConfusion habs,
      fun fc' hfc => by cases hfc; exact if_pos rfl⟩

/-- C9 counterexample: a present but unparseable source is *not*
confined to its own tier: `json.load` raises outside any handler and the
whole `load_data` call fails, even though every other tier is fine. -/
theorem claim_C9_counterexample :
    load_data (fun t => match t with
      | Tier.sls => FileState.invalid
      | Tier.lingkungan => FileState.valid []
      | Tier.kelurahan => FileState.absent) = Except.error () := rfl

/-- C9 (amended): a boundary source that cannot be *located* yields an
empty (absent) entry for that tier only while the other tiers still
load, and a point lookup against an absent tier returns `none` rather
than failing; this per-tier isolation holds whenever no present file is
unparseable (an unparseable file aborts the whole load, see the
counterexample). -/
theorem claim_C9_absent_isolated :
    (∀ fs : Tier → FileState, (∀ t, fs t ≠ FileState.invalid) →
      ∃ m, load_data fs = Except.ok m ∧
        (∀ t, fs t = FileState.absent → m t = none) ∧
        (∀ t fc, fs t = FileState.valid fc → m t = some fc)) ∧
    (∀ p : ℚ × ℚ, find_containing_feature p none = none) := by
  refine ⟨?_, fun p => rfl⟩
  intro fs hinv
  obtain ⟨m1, hr1, h1o, h1a, h1v⟩ := loadStep_ok (fun _ => none) (hinv Tier.sls)
  obtain ⟨m2, hr2, h2o, h2a, h2v⟩ := loadStep_ok m1 (hinv Tier.lingkungan)
  obtain ⟨m3, hr3, h3o, h3a, h3v⟩ := loadStep_ok m2 (hinv Tier.kelurahan)
  refine ⟨m3, ?_, ?_, ?_⟩
  · rw [load_data_eq, hr1, except_ok_bind, hr2, except_ok_bind, hr3,
      except_ok_bind]
    rfl
  · intro t ht
    cases t with
    | sls => rw [h3o _ (by decide), h2o _ (by decide)]; exact h1a ht
    | lingkungan => rw [h3o _ (by decide)]; exact h2a ht
    | kelurahan => exact h3a ht
  · intro t fc hfc
    cases t with
    | sls => rw [h3o _ (by decide), h2o _ (by decide)]; exact h1v fc hfc
    | lingkungan => rw [h3o _ (by decide)]; exact h2v fc hfc
    | kelurahan => exact h3v fc hfc

/-- Witness for C9: the amended isolation applied to a file system with
a missing SLS source and parseable (respectively missing) other
sources. -/
theorem claim_C9_witness :
    ∃ m, load_data (fun t => match t with
        | Tier.sls => FileState.absent
        | Tier.lingkungan => FileState.valid []
        | Tier.kelurahan => FileState.absent) = Except.ok m ∧
      (∀ t, (fun t => match t with
        | Tier.sls => FileState.absent
        | Tier.lingkungan => FileState.valid []
        | Tier.kelurahan => FileState.absent) t = FileState.absent →
          m t = none) ∧
      (∀ t fc, (fun t => match t with
        | Tier.sls => FileState.absent
        | Tier.lingkungan => FileState.valid []
        | Tier.kelurahan => FileState.absent) t = FileState.valid fc →
          m t = some fc) :=
  claim_C9_absent_isolated.1 _ (fun t => by cases t <;> simp)

/-! ## Claims about the coordinate extractor -/

/-- Computation of the unsigned matcher on a well-formed decimal body
followed by non-digit (or empty) text. -/
theorem matchUnsignedDec_structured {ip fp rest : List Char}
    (hip : ip ≠ []) (hipd : AllDigit ip)
    (hfp : fp ≠ []) (hfpd : AllDigit fp)
    (hrest : ∀ c, rest.head? = some c → isDig c = false) :
    matchUnsignedDec (ip ++ '.' :: fp ++ rest) =
      some (ip ++ '.' :: fp, rest) := by
  have hdots : isDig '.' = false := by decide
  have e0 : ip ++ '.' :: fp ++ rest = ip ++ ('.' :: (fp ++ rest)) := by simp
  have e1 : (ip ++ '.' :: fp ++ rest).takeWhile isDig = ip := by
    rw [e0, takeWhile_append_all hipd, List.takeWhile_cons, hdots]
    simp
  have e2 : (ip ++ '.' :: fp ++ rest).dropWhile isDig = '.' :: (fp ++ rest) := by
    rw [e0, dropWhile_append_all hipd, List.dropWhile_cons, hdots]
    simp
  have e3 : (fp ++ rest).takeWhile isDig = fp := by
    rw [takeWhile_append_all hfpd, takeWhile_eq_nil_of_head hrest,
      List.append_nil]
  have e4 : (fp ++ rest).dropWhile isDig = rest :=
    by rw [dropWhile_append_all hfpd, dropWhile_eq_self_of_head hrest]
  rw [matchUnsignedDec]
  simp only
  rw [e1, e2, if_neg hip]
  rw [if_pos (show ('.' :: (fp ++ rest)).head? = some '.' from rfl)]
  simp only [List.tail_cons]
  rw [e3, e4, if_neg hfp]

/-- Inversion: a successful unsigned match decomposes its input into
digits, a dot, digits, and the rest. -/
theorem matchUnsignedDec_some_inv {u tok rest : List Char}
    (h : matchUnsignedDec u = some (tok, rest)) :
    u = tok ++ rest ∧ tok ≠ [] ∧ (∃ ip fp, tok = ip ++ '.' :: fp ∧
      ip ≠ [] ∧ AllDigit ip ∧ fp ≠ [] ∧ AllDigit fp) := by
  rw [matchUnsignedDec] at h
  simp only at h
  split at h
  next => exact absurd h (by simp)
  next hip =>
    split at h
    next hdot =>
      split at h
      next => exact absurd h (by simp)
      next hfp =>
        simp only [Option.some.injEq, Prod.mk.injEq] at h
        obtain ⟨htok, hrest⟩ := h
        obtain ⟨t2, ht2⟩ : ∃ t2, u.dropWhile isDig = '.' :: t2 := by
          cases hs1 : u.dropWhile isDig with
          | nil => rw [hs1] at hdot; simp at hdot
          | cons c t2 =>
            rw [hs1] at hdot
            simp at hdot
            rw [hdot]
            exact ⟨t2, rfl⟩
        rw [ht2] at htok hrest
        simp only [List.tail_cons] at htok hrest
        refine ⟨?_, ?_, u.takeWhile isDig, t2.takeWhile isDig, ?_, hip,
          fun c hc => List.mem_takeWhile_imp hc, ?_,
          fun c hc => List.mem_takeWhile_imp hc⟩
        · rw [← htok, ← hrest]
          have hx : u = u.takeWhile isDig ++ ('.' :: t2) := by
            rw [← ht2, List.takeWhile_append_dropWhile]
          have hy : '.' :: t2 =
              '.' :: (t2.takeWhile isDig ++ t2.dropWhile isDig) := by
            rw [List.takeWhile_append_dropWhile]
          conv_lhs => rw [hx]
          rw [hy]
          simp
        · rw [← htok]
          simp
        · rw [← htok]
        · rw [ht2] at hfp
          simp only [List.tail_cons] at hfp
          exact hfp
    next => exact absurd h (by simp)

/-- Computation of the signed matcher on a well-formed token followed by
non-digit (or empty) text. -/
theorem matchSignedDec_structured {sign ip fp rest : List Char}
    (hsign : sign = [] ∨ sign = ['-'])
    (hip : ip ≠ []) (hipd : AllDigit ip)
    (hfp : fp ≠ []) (hfpd : AllDigit fp)
    (hrest : ∀ c, rest.head? = some c → isDig c = false) :
    matchSignedDec (sign ++ ip ++ '.' :: fp ++ rest) =
      some (sign ++ ip ++ '.' :: fp, rest) := by
  have hcore := matchUnsignedDec_structured hip hipd hfp hfpd hrest
  obtain ⟨d, ip', rfl⟩ : ∃ d ip', ip = d :: ip' := by
    cases ip with
    | nil => exact absurd rfl hip
    | cons d ip' => exact ⟨d, ip', rfl⟩
  have hd : isDig d = true := hipd d (by simp)
  rcases hsign with rfl | rfl
  · rw [matchSignedDec]
    rw [if_neg]
    · simp only [List.nil_append]
      exact hcore
    · simp only [List.nil_append, List.cons_append, List.head?_cons,
        Option.some.injEq]
      intro he
      rw [he] at hd
      exact absurd hd (by decide)
  · rw [matchSignedDec]
    rw [if_pos]
    · simp only [List.cons_append, List.nil_append, List.tail_cons]
      rw [show d :: (ip' ++ '.' :: fp ++ rest) =
        (d :: ip') ++ '.' :: fp ++ rest by simp] at *
      rw [hcore]
      simp
    · simp

/-- The unsigned matcher succeeds on a well-formed decimal body whatever
follows. -/
theorem matchUnsignedDec_succeeds (v : List Char) {ip fp : List Char}
    (hip : ip ≠ []) (hipd : AllDigit ip) (hfp : fp ≠ []) (hfpd : AllDigit fp) :
    ∃ r, matchUnsignedDec ((ip ++ '.' :: fp) ++ v) = some r := by
  have hsplit : fp ++ v =
      (fp ++ v).takeWhile isDig ++ (fp ++ v).dropWhile isDig :=
    (List.takeWhile_append_dropWhile _ _).symm
  have htw_ne : (fp ++ v).takeWhile isDig ≠ [] := by
    obtain ⟨f, fp', rfl⟩ : ∃ f fp', fp = f :: fp' := by
      cases fp with
      | nil => exact absurd rfl hfp
      | cons f fp' => exact ⟨f, fp', rfl⟩
    rw [List.cons_append, List.takeWhile_cons, hfpd f (by simp), if_pos rfl]
    simp
  have hshape : (ip ++ '.' :: fp) ++ v =
      ip ++ '.' :: ((fp ++ v).takeWhile isDig) ++ (fp ++ v).dropWhile isDig := by
    simp only [List.append_assoc, List.cons_append]
    rw [← hsplit]
  rw [hshape]
  exact ⟨_, matchUnsignedDec_structured hip hipd htw_ne
    (fun c hc => List.mem_takeWhile_imp hc)
    (fun c hc => head?_dropWhile_not hc)⟩

/-- The signed matcher succeeds on a well-formed token whatever
follows. -/
theorem matchSignedDec_succeeds (v : List Char) {tok : List Char}
    (ht : SignedDec tok) :
    ∃ r, matchSignedDec (tok ++ v) = some r := by
  obtain ⟨sign, ip, fp, rfl, hsign, hip, hipd, hfp, hfpd⟩ := ht
  obtain ⟨d, ip', rfl⟩ : ∃ d ip', ip = d :: ip' := by
    cases ip with
    | nil => exact absurd rfl hip
    | cons d ip' => exact ⟨d, ip', rfl⟩
  have hd : isDig d = true := hipd d (by simp)
  obtain ⟨r, hr⟩ := matchUnsignedDec_succeeds v hip hipd hfp hfpd
  rcases hsign with rfl | rfl
  · rw [matchSignedDec]
    rw [if_neg]
    · rw [show ([] ++ (d :: ip') ++ '.' :: fp) ++ v =
        ((d :: ip') ++ '.' :: fp) ++ v by simp, hr]
      exact ⟨r, rfl⟩
    · simp only [List.nil_append, List.cons_append, List.head?_cons,
        Option.some.injEq]
      intro he
      rw [he] at hd
      exact absurd hd (by decide)
  · rw [matchSignedDec]
    rw [if_pos]
    · rw [show ((['-'] ++ (d :: ip') ++ '.' :: fp) ++ v).tail =
        ((d :: ip') ++ '.' :: fp) ++ v by simp, hr]
      exact ⟨('-' :: r.1, r.2), rfl⟩
    · simp

/-- Inversion: a successful signed match yields a `SignedDec` token and
splits the input. -/
theorem matchSignedDec_some_inv {s tok rest : List Char}
    (h : matchSignedDec s = some (tok, rest)) :
    s = tok ++ rest ∧ SignedDec tok := by
  rw [matchSignedDec] at h
  split at h
  next hm =>
    obtain ⟨t, rfl⟩ : ∃ t, s = '-' :: t := by
      cases s with
      | nil => simp at hm
      | cons c t =>
        simp at hm
        rw [hm]
        exact ⟨t, rfl⟩
    simp only [List.tail_cons] at h
    split at h
    next tok0 rest0 heq =>
      simp only [Option.some.injEq, Prod.mk.injEq] at h
      obtain ⟨htok, hrest⟩ := h
      obtain ⟨hu, _, ip, fp, htok0, hipne, hipd, hfpne, hfpd⟩ :=
        matchUnsignedDec_some_inv heq
      constructor
      · rw [← htok, ← hrest, hu]
        rfl
      · exact ⟨['-'], ip, fp, by rw [← htok, htok0]; rfl,
          Or.inr rfl, hipne, hipd, hfpne, hfpd⟩
    next => exact absurd h (by simp)
  next hm =>
    obtain ⟨hu, _, ip, fp, htok0, hipne, hipd, hfpne, hfpd⟩ :=
      matchUnsignedDec_some_inv h
    exact ⟨hu, [], ip, fp, by rw [htok0]; rfl, Or.inl rfl,
      hipne, hipd, hfpne, hfpd⟩

/-- Computation of the coordinate-pair matcher on two well-formed tokens
separated by a comma (the text after the second token must not start
with a digit, otherwise the second fraction would extend into it). -/
theorem matchCoordPair_structured {a b v : List Char}
    (ha : SignedDec a) (hb : SignedDec b)
    (hv : ∀ c, v.head? = some c → isDig c = false) :
    matchCoordPair (a ++ ',' :: b ++ v) = some (a, b) := by
  have hcomma : ∀ c, (',' :: (b ++ v)).head? = some c → isDig c = false := by
    intro c hc
    simp at hc
    rw [← hc]
    decide
  obtain ⟨sa, ipa, fpa, rfl, hsa, hipa, hipad, hfpa, hfpad⟩ := ha
  have h1 : matchSignedDec ((sa ++ ipa ++ '.' :: fpa) ++ ',' :: b ++ v) =
      some (sa ++ ipa ++ '.' :: fpa, ',' :: (b ++ v)) := by
    rw [show (sa ++ ipa ++ '.' :: fpa) ++ ',' :: b ++ v =
      sa ++ ipa ++ '.' :: fpa ++ (',' :: (b ++ v)) by simp]
    exact matchSignedDec_structured hsa hipa hipad hfpa hfpad hcomma
  obtain ⟨sb, ipb, fpb, rfl, hsb, hipb, hipbd, hfpb, hfpbd⟩ := hb
  have h2 : matchSignedDec ((sb ++ ipb ++ '.' :: fpb) ++ v) =
      some (sb ++ ipb ++ '.' :: fpb, v) := by
    rw [show (sb ++ ipb ++ '.' :: fpb) ++ v =
      sb ++ ipb ++ '.' :: fpb ++ v by simp]
    exact matchSignedDec_structured hsb hipb hipbd hfpb hfpbd hv
  rw [matchCoordPair, h1]
  simp only
  rw [h2]

/-- The coordinate-pair matcher succeeds on two well-formed tokens
whatever follows. -/
theorem matchCoordPair_succeeds (v : List Char) {a b : List Char}
    (ha : SignedDec a) (hb : SignedDec b) :
    ∃ r, matchCoordPair (a ++ ',' :: b ++ v) = some r := by
  have hcomma : ∀ c, (',' :: (b ++ v)).head? = some c → isDig c = false := by
    intro c hc
    simp at hc
    rw [← hc]
    decide
  obtain ⟨sa, ipa, fpa, rfl, hsa, hipa, hipad, hfpa, hfpad⟩ := ha
  have h1 : matchSignedDec ((sa ++ ipa ++ '.' :: fpa) ++ ',' :: b ++ v) =
      some (sa ++ ipa ++ '.' :: fpa, ',' :: (b ++ v)) := by
    rw [show (sa ++ ipa ++ '.' :: fpa) ++ ',' :: b ++ v =
      sa ++ ipa ++ '.' :: fpa ++ (',' :: (b ++ v)) by simp]
    exact matchSignedDec_structured hsa hipa hipad hfpa hfpad hcomma
  obtain ⟨r2, hr2⟩ := matchSignedDec_succeeds v hb
  rw [matchCoordPair, h1]
  simp only
  rw [hr2]
  exact ⟨(sa ++ ipa ++ '.' :: fpa, r2.1), rfl⟩

/-- Inversion: a successful pair match decomposes the input into the two
tokens, the comma, and a remainder. -/
theorem matchCoordPair_some_inv {s a b : List Char}
    (h : matchCoordPair s = some (a, b)) :
    ∃ v, s = a ++ ',' :: b ++ v ∧ SignedDec a ∧ SignedDec b := by
  rw [matchCoordPair] at h
  split at h
  next => exact absurd h (by simp)
  next a0 s1 heq1 =>
    split at h
    next s2 =>
      split at h
      next => exact absurd h (by simp)
      next b0 rest2 heq2 =>
        simp only [Option.some.injEq, Prod.mk.injEq] at h
        obtain ⟨ha0, hb0⟩ := h
        obtain ⟨hs1, hda⟩ := matchSignedDec_some_inv heq1
        obtain ⟨hs2, hdb⟩ := matchSignedDec_some_inv heq2
        refine ⟨rest2, ?_, by rw [← ha0]; exact hda, by rw [← hb0]; exact hdb⟩
        rw [hs1, hs2, ha0, hb0]
        simp
    next => exact absurd h (by simp)

/-- Inversion for the `@` pattern. -/
theorem matchAtPat_some_inv {v : List Char} {r : List Char × List Char}
    (h : matchAtPat v = some r) :
    ∃ t, v = '@' :: t ∧ matchCoordPair t = some r := by
  unfold matchAtPat at h
  split at h
  next t => exact ⟨t, rfl, h⟩
  next => exact absurd h (by simp)

/-- Inversion for the `q=` pattern. -/
theorem matchQPat_some_inv {v : List Char} {r : List Char × List Char}
    (h : matchQPat v = some r) :
    ∃ t, v = 'q' :: '=' :: t ∧ matchCoordPair t = some r := by
  unfold matchQPat at h
  split at h
  next t => exact ⟨t, rfl, h⟩
  next => exact absurd h (by simp)

/-- The `@` search fails exactly when no `@lat,lon` occurrence exists
(completeness of the leftmost search against the grammar). -/
theorem searchAt_none_iff (s : List Char) :
    searchWith matchAtPat s = none ↔ ¬ CoordMatchable ['@'] s := by
  constructor
  · intro h hmat
    obtain ⟨u, a, b, v, hs, ha, hb⟩ := hmat
    obtain ⟨r, hr⟩ := matchCoordPair_succeeds v ha hb
    rw [show u ++ ['@'] ++ a ++ ',' :: b ++ v =
      u ++ ('@' :: (a ++ ',' :: b ++ v)) by simp] at hs
    rw [hs] at h
    exact searchWith_ne_none (show matchAtPat ('@' :: (a ++ ',' :: b ++ v)) =
      some r from hr) (by simp) h
  · intro h
    cases hs : searchWith matchAtPat s with
    | none => rfl
    | some r =>
      exfalso
      apply h
      obtain ⟨u, v, hsplit, hv, hm⟩ := searchWith_some_decomp hs
      obtain ⟨t, hteq, hmc⟩ := matchAtPat_some_inv hm
      obtain ⟨a, b⟩ := r
      obtain ⟨v', hteq2, hda, hdb⟩ := matchCoordPair_some_inv hmc
      refine ⟨u, a, b, v', ?_, hda, hdb⟩
      rw [hsplit, hteq, hteq2]
      simp

/-- The `q=` search fails exactly when no `q=lat,lon` occurrence exists. -/
theorem searchQ_none_iff (s : List Char) :
    searchWith matchQPat s = none ↔ ¬ CoordMatchable ['q', '='] s := by
  constructor
  · intro h hmat
    obtain ⟨u, a, b, v, hs, ha, hb⟩ := hmat
    obtain ⟨r, hr⟩ := matchCoordPair_succeeds v ha hb
    rw [show u ++ ['q', '='] ++ a ++ ',' :: b ++ v =
      u ++ ('q' :: '=' :: (a ++ ',' :: b ++ v)) by simp] at hs
    rw [hs] at h
    exact searchWith_ne_none
      (show matchQPat ('q' :: '=' :: (a ++ ',' :: b ++ v)) =
        some r from hr) (by simp) h
  · intro h
    cases hs : searchWith matchQPat s with
    | none => rfl
    | some r =>
      exfalso
      apply h
      obtain ⟨u, v, hsplit, hv, hm⟩ := searchWith_some_decomp hs
      obtain ⟨t, hteq, hmc⟩ := matchQPat_some_inv hm
      obtain ⟨a, b⟩ := r
      obtain ⟨v', hteq2, hda, hdb⟩ := matchCoordPair_some_inv hmc
      refine ⟨u, a, b, v', ?_, hda, hdb⟩
      rw [hsplit, hteq, hteq2]
      simp

/-- C4: the extractor tries the `@lat,lon` pattern first and the
`q=lat,lon` pattern second, each with the signed-decimal grammar
(optional leading minus, digits before and after the decimal point); the
first pattern that matches wins (the `q=` branch applies only when no
`@` occurrence exists anywhere, so for a string containing both segments
the `@` coordinates are returned), and when neither grammar occurs the
result is `NotFound`; with the concrete examples of the spec, exact
rational values of the decimal literals. -/
theorem claim_C4_extract_order :
    (∀ (s : String) (u a b v : List Char),
      s.toList = u ++ ['@'] ++ a ++ ',' :: b ++ v →
      SignedDec a → SignedDec b →
      (∀ c, v.head? = some c → isDig c = false) →
      (∀ i, i < u.length → matchAtPat (s.toList.drop i) = none) →
      extract_coords s = some (decTokVal a, decTokVal b)) ∧
    (∀ (s : String) (u a b v : List Char),
      ¬ CoordMatchable ['@'] s.toList →
      s.toList = u ++ ['q', '='] ++ a ++ ',' :: b ++ v →
      SignedDec a → SignedDec b →
      (∀ c, v.head? = some c → isDig c = false) →
      (∀ i, i < u.length → matchQPat (s.toList.drop i) = none) →
      extract_coords s = some (decTokVal a, decTokVal b)) ∧
    (∀ s : String, ¬ CoordMatchable ['@'] s.toList →
      ¬ CoordMatchable ['q', '='] s.toList → extract_coords s = none) ∧
    extract_coords "https://maps.google.com/maps/@-8.6229077,116.0834501,18z" =
      some (mkRat (-86229077) 10000000, mkRat 1160834501 10000000) ∧
    extract_coords "https://maps.google.com/?q=-8.58,116.11" =
      some (mkRat (-858) 100, mkRat 11611 100) ∧
    extract_coords "no coordinates here" = none ∧
    extract_coords "q=3.5,4.5 and @1.5,2.5" = some (mkRat 3 2, mkRat 5 2) := by
  refine ⟨?_, ?_, ?_, by decide, by decide, by decide, by decide⟩
  · intro s u a b v hs ha hb hv hno
    have hshape : s.toList = u ++ ('@' :: (a ++ ',' :: b ++ v)) := by
      rw [hs]
      simp
    have hsearch : searchWith matchAtPat s.toList = some (a, b) := by
      rw [hshape]
      rw [searchWith_append_none]
      · exact searchWith_of_head_some
          (show matchAtPat ('@' :: (a ++ ',' :: b ++ v)) = some (a, b) from
            matchCoordPair_structured ha hb hv)
      · intro i hi
        have := hno i hi
        rwa [hshape] at this
    rw [extract_coords, hsearch]
  · intro s u a b v hat hs ha hb hv hno
    have hat2 : searchWith matchAtPat s.toList = none :=
      (searchAt_none_iff _).mpr hat
    have hshape : s.toList = u ++ ('q' :: '=' :: (a ++ ',' :: b ++ v)) := by
      rw [hs]
      simp
    have hsearch : searchWith matchQPat s.toList = some (a, b) := by
      rw [hshape]
      rw [searchWith_append_none]
      · exact searchWith_of_head_some
          (show matchQPat ('q' :: '=' :: (a ++ ',' :: b ++ v)) = some (a, b)
            from matchCoordPair_structured ha hb hv)
      · intro i hi
        have := hno i hi
        rwa [hshape] at this
    rw [extract_coords, hat2, hsearch]
  · intro s hat hq
    rw [extract_coords, (searchAt_none_iff _).mpr hat,
      (searchQ_none_iff _).mpr hq]

/-- Witness for C4: the `@`-branch applied at the concrete input
`"x@1.5,2.5"`. -/
theorem claim_C4_witness :
    extract_coords "x@1.5,2.5" =
      some (decTokVal ['1', '.', '5'], decTokVal ['2', '.', '5']) :=
  claim_C4_extract_order.1 "x@1.5,2.5" ['x'] ['1', '.', '5'] ['2', '.', '5'] []
    (by decide)
    ⟨[], ['1'], ['5'], rfl, Or.inl rfl, by decide, by decide, by decide,
      by decide⟩
    ⟨[], ['2'], ['5'], rfl, Or.inl rfl, by decide, by decide, by decide,
      by decide⟩
    (fun c hc => by simp at hc)
    (fun i hi => by
      have h2 : i < 1 := by simpa using hi
      interval_cases i
      decide)
